import Mathlib

/-!
# ByteBuffer (src/server/shared/Packets/ByteBuffer.h)

A shallow embedding of the growable wire-format buffer and a verification of
its specified properties.

Modelling conventions.

* `size_t` is a 64-bit unsigned integer. Cursors and sizes are natural numbers;
  unsigned subtraction, the increment and decrement of `bitpos` and the sum of
  `rpos` and a length supplied by the caller (`read_skip`, the raw `read`) wrap
  modulo `2 ^ 64`. The other sums of positions and sizes are bounded by the
  size of the address space and are not reduced.
* The heap block `data` is the list of its bytes, and the field `length` of the
  class is the length of that list: every assignment to `length` in the source
  is paired with an allocation of exactly that many bytes.
* Allocation does not fail for lack of memory: `malloc` returns a block (the
  first allocation asserts it), also for a request of zero bytes. `realloc`
  follows the allocator of the host (glibc): a request of zero bytes on a block
  frees the block and returns the null pointer, and on the null pointer the
  call is `malloc`. The field `null` of the state records that `data` is the
  null pointer; this is the state `deAllocateLeftover()` at `wpos = 0` and
  `clear(0)` leave, and `_newAllocation` returns at `!ptr` in it. Bytes that
  the allocator leaves indeterminate are `indeterminate`.
* `memcpy` outside the block or through the null pointer is undefined in C++
  (on the host a store through the null pointer faults); here a store outside
  the block is dropped and a load outside the block yields no byte, so an
  append on a null block leaves the block null and empty.
* A thrown `ByteBufferException` is the outcome `raised`, carrying the state of
  the buffer at the throw.
* A `std::string` is the list of its bytes and a `char` is its byte; a `float`
  coordinate is an exact rational.
* A run of a buffer is a list of operations (`Op`) applied in order from the
  freshly constructed buffer, `runAll`; it stops at the first call that throws.
  `storeSafe` tells that no operation of the run that may store bytes is issued
  on a null block, `bitWriteSafe` that no bit is written at bit cursor 0.
-/

set_option autoImplicit false

/-! ## Machine arithmetic -/

/-- Modulus of `size_t` arithmetic. -/
def SIZE_MOD : Nat := 2 ^ 64

/-- Unsigned subtraction `a - b` of two `size_t` values: the difference modulo
`2 ^ 64`. -/
def sizeSub (a b : Nat) : Nat :=
  if b ≤ a then a - b else SIZE_MOD - (b - a)

/-- The fixed-width integer types `append` and `read` are instantiated with. -/
inductive IntType where
  | uint8 | uint16 | uint32 | uint64
  | int8 | int16 | int32 | int64
deriving DecidableEq

namespace IntType

/-- The value of `sizeof(T)`. -/
def sizeof : IntType → Nat
  | uint8 => 1 | uint16 => 2 | uint32 => 4 | uint64 => 8
  | int8 => 1 | int16 => 2 | int32 => 4 | int64 => 8

/-- Whether `T` is a signed type. -/
def isSigned : IntType → Bool
  | uint8 => false | uint16 => false | uint32 => false | uint64 => false
  | int8 => true | int16 => true | int32 => true | int64 => true

/-- The number of value bits of `T`. -/
def bits (T : IntType) : Nat := 8 * T.sizeof

/-- The values representable in `T`. -/
def InRange (T : IntType) (v : Int) : Prop :=
  if T.isSigned then -(2 : Int) ^ (T.bits - 1) ≤ v ∧ v < (2 : Int) ^ (T.bits - 1)
  else 0 ≤ v ∧ v < (2 : Int) ^ T.bits

instance (T : IntType) (v : Int) : Decidable (T.InRange v) := by
  unfold InRange; infer_instance

end IntType

/-- The `n` low-order bytes of `v`, least significant byte first. -/
def leBytes : Nat → Nat → List Nat
  | 0, _ => []
  | n + 1, v => v % 256 :: leBytes n (v / 256)

/-- The number denoted by a byte string, least significant byte first. -/
def leValue : List Nat → Nat
  | [] => 0
  | x :: xs => x + 256 * leValue xs

/-- Modelled from the spec: `EndianConvert` (ByteConverter.h, not under src)
followed by the `memcpy` out of the converted value. The spec fixes the wire
order as little-endian: the bytes stored for a value of type `T` are the
`sizeof(T)` bytes of its two-complement representation, least significant
first. -/
def toWire (T : IntType) (v : Int) : List Nat :=
  leBytes T.sizeof (v % (2 : Int) ^ T.bits).toNat

/-- Modelled from the spec: the `memcpy` into a value of type `T` followed by
`EndianConvert` (ByteConverter.h, not under src): the value whose little-endian
two-complement representation is the byte string. -/
def ofWire (T : IntType) (src : List Nat) : Int :=
  if T.isSigned ∧ 2 ^ (T.bits - 1) ≤ leValue src then
    (leValue src : Int) - (2 : Int) ^ T.bits
  else (leValue src : Int)

/-! ## Heap blocks -/

/-- The content of a byte the allocator leaves indeterminate: a fixed
representative value, so that the operations can be evaluated. -/
def indeterminate : Nat := 0

/-- A fresh block of `n` bytes. -/
def malloc (n : Nat) : List Nat := List.replicate n indeterminate

/-- The content of the block `realloc(ptr, n)` returns, `d` being the content
of the block at `ptr` (empty for the null pointer): the content is kept up to
the lesser of the old and new sizes. Whether the pointer returned is null is
`reallocNull`. -/
def realloc (d : List Nat) (n : Nat) : List Nat :=
  d.take n ++ List.replicate (n - d.length) indeterminate

/-- Whether `realloc(ptr, n)` returns the null pointer, `isNull` telling whether
`ptr` is null. A request of zero bytes on a block frees the block and returns
the null pointer; `realloc(NULL, n)` is `malloc(n)`, which returns a block. -/
def reallocNull (isNull : Bool) (n : Nat) : Bool :=
  !isNull && n == 0

/-- Store: `memcpy(block + pos, src, |src|)`. The part of the store that falls
outside the block is dropped. -/
def memcpy (d : List Nat) (pos : Nat) (src : List Nat) : List Nat :=
  (d.take pos ++ src ++ d.drop (pos + src.length)).take d.length

/-- Load: the `n` bytes copied by `memcpy(dest, block + pos, n)`. -/
def memRead (d : List Nat) (pos n : Nat) : List Nat :=
  (d.drop pos).take n

/-! ## The buffer -/

/-- The arguments of the `ByteBufferException` constructor. -/
structure ByteBufferException where
  add : Bool
  pos : Nat
  elementSize : Nat
  totalSize : Nat
deriving DecidableEq

/-- The state of a `ByteBuffer` object. The field `data` is the content of the
block at the pointer `data`, and `null` tells that this pointer is null (the
content is then empty). -/
structure ByteBuffer where
  rpos : Nat
  wpos : Nat
  bitpos : Nat
  curbitval : Nat
  data : List Nat
  null : Bool := false
deriving DecidableEq

/-- The result of a member function that may throw: the returned value and the
state after the call, or the exception and the state at the throw. -/
inductive Outcome (α : Type) where
  | ok (val : α) (buf : ByteBuffer)
  | raised (e : ByteBufferException) (buf : ByteBuffer)
deriving DecidableEq

namespace ByteBuffer

/-- The field `length`, also returned by `size()`: the allocated size. -/
def length (b : ByteBuffer) : Nat := b.data.length

/-- The bytes written so far, `storage[0 .. wpos)`. -/
def written (b : ByteBuffer) : List Nat := b.data.take b.wpos

/-- The private `_newAllocation(ptr, newSize, firstAllocation)`. The
constructors pass `NULL` together with `firstAllocation = true`: the block is
the result of `malloc(newSize)`, asserted not null. Every other call passes
the pointer `data` of the buffer as `ptr`. With `firstAllocation` false nothing
happens when `ptr` is null or `newSize < length`; otherwise the block is
resized to `newSize + 10` (a request of at least 10 bytes on a block, which
returns a block). -/
def _newAllocation (b : ByteBuffer) (newSize : Nat) (firstAllocation : Bool) : ByteBuffer :=
  if firstAllocation then { b with data := malloc newSize, null := false }
  else if b.null = true ∨ newSize < b.length then b
  else { b with data := realloc b.data (newSize + 10) }

/-- The default constructor `ByteBuffer()`. -/
def new : ByteBuffer :=
  _newAllocation
    { rpos := 0, wpos := 0, bitpos := 8, curbitval := 0, data := [], null := true } 10 true

/-- The constructor `ByteBuffer(size_t reserved)`. -/
def reserved (n : Nat) : ByteBuffer :=
  _newAllocation
    { rpos := 0, wpos := 0, bitpos := 8, curbitval := 0, data := [], null := true } n true

/-- The member `deAllocateLeftover()`: the block is resized to `wpos`. At
`wpos = 0` the block is freed and `data` is left null. -/
def deAllocateLeftover (b : ByteBuffer) : ByteBuffer :=
  { b with data := realloc b.data b.wpos, null := reallocNull b.null b.wpos }

/-- The statements shared by the typed and the raw `append` (lines 113-117 and
122-126): grow to `length + size + 10` when `length < wpos + size`, copy the
bytes to `wpos`, advance `wpos`. On a null block `_newAllocation` returns
without allocating and the `memcpy` stores through the null pointer. -/
def storeBytes (src : List Nat) (b : ByteBuffer) : ByteBuffer :=
  let b1 := if b.length < b.wpos + src.length
    then b._newAllocation (b.length + src.length) false else b
  { b1 with data := memcpy b1.data b1.wpos src, wpos := b1.wpos + src.length }

/-- The member `flushBits()`. The call `append<uint8>(curbitval)` is made with
`bitpos = 8`, so the `flushBits()` nested in it returns at once and the call
amounts to `storeBytes` (see `append_uint8_of_bitpos_eight`). -/
def flushBits (b : ByteBuffer) : ByteBuffer :=
  if b.bitpos = 8 then b
  else
    let b1 := storeBytes (toWire .uint8 b.curbitval) { b with bitpos := 8 }
    { b1 with curbitval := 0 }

/-- The typed `append<T>(value)` with the default `size = sizeof(value)`. -/
def append (T : IntType) (value : Int) (b : ByteBuffer) : ByteBuffer :=
  storeBytes (toWire T value) (flushBits b)

/-- The raw `append(uint8 *value, size_t len)`; `src` is the `len` bytes at
`value`. It does not call `flushBits`. -/
def appendBytes (src : List Nat) (b : ByteBuffer) : ByteBuffer :=
  storeBytes src b

/-- The overload `append(ByteBuffer& buffer)` called on `b` with an argument that
is another object than `b`: returns the trimmed argument and the new state of
`b`. It grows to `wpos + len + 10` and does not call `flushBits`. The call with
`b` itself as the argument is `appendSelf`. -/
def appendBuffer (buffer : ByteBuffer) (b : ByteBuffer) : ByteBuffer × ByteBuffer :=
  let buffer1 := buffer.deAllocateLeftover
  let len := buffer1.length
  let b1 := if b.length < b.wpos + len then b._newAllocation (b.wpos + len) false else b
  (buffer1, { b1 with data := memcpy b1.data b1.wpos (memRead buffer1.data 0 len),
                      wpos := b1.wpos + len })

/-- The overload `append(ByteBuffer& buffer)` called on `b` with `b` itself as the
argument: `buffer.deAllocateLeftover()` trims `b`, `len` is its new `length`,
and the bytes `[0, len)` of its block are copied to `wpos`. -/
def appendSelf (b : ByteBuffer) : ByteBuffer :=
  let b0 := b.deAllocateLeftover
  let len := b0.length
  let b1 := if b0.length < b0.wpos + len then b0._newAllocation (b0.wpos + len) false else b0
  { b1 with data := memcpy b1.data b1.wpos (memRead b1.data 0 len), wpos := b1.wpos + len }

/-- The sequential `read<T>()`. -/
def read (T : IntType) (b : ByteBuffer) : Outcome Int :=
  if T.sizeof > sizeSub b.length b.rpos then
    .raised ⟨false, b.rpos, T.sizeof, b.length⟩ b
  else
    .ok (ofWire T (memRead b.data b.rpos T.sizeof)) { b with rpos := b.rpos + T.sizeof }

/-- The positional `read<T>(size_t pos) const`. -/
def readAt (T : IntType) (pos : Nat) (b : ByteBuffer) : Except ByteBufferException Int :=
  if pos + T.sizeof > b.length then
    .error ⟨false, pos, T.sizeof, b.length⟩
  else
    .ok (ofWire T (memRead b.data pos T.sizeof))

/-- The member `writeBit(uint32 bit)`: the returned flag and the new state. The
decrement of `bitpos` is `size_t` arithmetic; the accumulator is a `uint8`. -/
def writeBit (bit : Nat) (b : ByteBuffer) : Bool × ByteBuffer :=
  let bitpos1 := sizeSub b.bitpos 1
  let cur1 := if bit ≠ 0 then (b.curbitval ||| (1 <<< bitpos1)) % 256 else b.curbitval
  let b1 := { b with bitpos := bitpos1, curbitval := cur1 }
  let b2 := if bitpos1 = 0 then
      { append .uint8 cur1 { b1 with bitpos := 8 } with curbitval := 0 }
    else b1
  (decide (bit ≠ 0), b2)

/-- The member `readBit()`. When `read<uint8>()` throws, `bitpos` has already
been set to 0. -/
def readBit (b : ByteBuffer) : Outcome Bool :=
  let bitpos1 := (b.bitpos + 1) % SIZE_MOD
  if bitpos1 > 7 then
    match read .uint8 { b with bitpos := 0 } with
    | .ok v b1 =>
      let b2 := { b1 with curbitval := v.toNat % 256 }
      .ok (decide ((b2.curbitval >>> (7 - b2.bitpos)) &&& 1 ≠ 0)) b2
    | .raised e b1 => .raised e b1
  else
    let b1 := { b with bitpos := bitpos1 }
    .ok (decide ((b1.curbitval >>> (7 - b1.bitpos)) &&& 1 ≠ 0)) b1

/-- The member `writeBits(value, bits)`: the loop
`for (int32 i = bits - 1; i >= 0; --i) writeBit((value >> i) & 1)`, for
`bits < 2 ^ 31`; with `bits = 0` the counter starts at `-1` and the body is
not run. `value` is the bit pattern of the argument. -/
def writeBits (value : Nat) : Nat → ByteBuffer → ByteBuffer
  | 0, b => b
  | i + 1, b => writeBits value i (writeBit ((value >>> i) &&& 1) b).2

/-- The loop `for (int32 i = bits - 1; i >= 0; --i)` of `readBits`, with `i + 1`
iterations left and the `uint32` `value` accumulated so far. -/
def readBitsLoop : Nat → Nat → ByteBuffer → Outcome Nat
  | 0, value, b => .ok value b
  | i + 1, value, b =>
    match readBit b with
    | .ok bit b1 => readBitsLoop i (if bit then (value ||| (1 <<< i)) % 2 ^ 32 else value) b1
    | .raised e b1 => .raised e b1

/-- The member `readBits(bits)`. -/
def readBits (bits : Nat) (b : ByteBuffer) : Outcome Nat :=
  readBitsLoop bits 0 b

/-- The loop of `readPackGUID`: `n` iterations left, at index `i`. -/
def readPackGUIDLoop (guidmark : Nat) : Nat → Nat → Nat → ByteBuffer → Outcome Nat
  | 0, _, guid, b => .ok guid b
  | n + 1, i, guid, b =>
    if guidmark &&& (1 <<< i) ≠ 0 then
      if b.rpos + 1 > b.length then .raised ⟨false, b.rpos, 1, b.length⟩ b
      else
        match read .uint8 b with
        | .ok bit b1 =>
          readPackGUIDLoop guidmark n (i + 1)
            ((guid ||| ((bit.toNat % 256) <<< (i * 8))) % 2 ^ 64) b1
        | .raised e b1 => .raised e b1
    else readPackGUIDLoop guidmark n (i + 1) guid b

/-- The member `readPackGUID(uint64& guid)`: the value left in `guid`. -/
def readPackGUID (b : ByteBuffer) : Outcome Nat :=
  if b.rpos + 1 > b.length then .raised ⟨false, b.rpos, 1, b.length⟩ b
  else
    match read .uint8 b with
    | .ok guidmark b1 => readPackGUIDLoop (guidmark.toNat % 256) 8 0 0 b1
    | .raised e b1 => .raised e b1

/-- The typed `append<T>(value, size)` as the call `append(&packGUID, size)` in
`appendPackGUID` instantiates it. The argument `&packGUID` has type
`uint8 (*)[9]`, which does not convert to `uint8*`: the raw overload
`append(uint8*, size_t)` is not viable and overload resolution selects the
template with `T = uint8 (*)[9]`. Its `memcpy((char*)data + wpos, &value, size)`
reads `size` bytes at `&value`, the address of the by-value pointer parameter,
not at the array the pointer refers to. `valueMem k` is the byte found at offset
`k` from `&value` after `EndianConvert(value)`: the object representation of the
pointer, then whatever follows it in memory. `sizeof(value)` is 8. -/
def appendSized (valueMem : Nat → Nat) (size : Nat) (b : ByteBuffer) : ByteBuffer :=
  let size1 := if size = 0 then 8 else size
  storeBytes ((List.range size1).map valueMem) (flushBits b)

/-- The loop `for (uint8 i = 0; guid != 0; ++i)` of `appendPackGUID`. The local
array `packGUID` is the pair of `packGUID[0]` and the list of the entries
`packGUID[1 .. size)`. A 64-bit `guid` is exhausted after 8 iterations, the
first argument bounds the number of iterations. -/
def packGUIDLoop : Nat → Nat → Nat → Nat → List Nat → Nat × List Nat
  | 0, _, _, mask, payload => (mask, payload)
  | fuel + 1, i, guid, mask, payload =>
    if guid = 0 then (mask, payload)
    else if guid &&& 0xFF ≠ 0 then
      packGUIDLoop fuel (i + 1) (guid >>> 8) ((mask ||| (1 <<< i)) % 256)
        (payload ++ [guid &&& 0xFF])
    else packGUIDLoop fuel (i + 1) (guid >>> 8) mask payload

/-- The member `appendPackGUID(uint64 guid)`. The loop fills the local array `packGUID`
and counts `size`; the call `append(&packGUID, size)` is `appendSized`, which
uses `size` only. -/
def appendPackGUID (valueMem : Nat → Nat) (guid : Nat) (b : ByteBuffer) : ByteBuffer :=
  let packGUID := packGUIDLoop 8 0 (guid % 2 ^ 64) 0 []
  let size := 1 + packGUID.2.length
  deAllocateLeftover (appendSized valueMem size b)

/-- Appending the bytes `bs` one at a time, each with `append<uint8>`. -/
def appendEach (bs : List Nat) (b : ByteBuffer) : ByteBuffer :=
  bs.foldl (fun (s : ByteBuffer) (x : Nat) => append .uint8 (x : Int) s) b

/-- Reading `n` bytes one at a time, each with `read<uint8>()`. -/
def readSeq : Nat → ByteBuffer → Outcome (List Int)
  | 0, b => .ok [] b
  | n + 1, b =>
    match read .uint8 b with
    | .ok v b1 =>
      match readSeq n b1 with
      | .ok vs b2 => .ok (v :: vs) b2
      | .raised e b2 => .raised e b2
    | .raised e b1 => .raised e b1

end ByteBuffer

/-! ## Bit strings -/

/-- The number denoted by a bit string, most significant bit first. -/
def bitsVal : List Bool → Nat
  | [] => 0
  | x :: xs => (if x then 2 ^ xs.length else 0) + bitsVal xs

/-- The `n` low-order bits of `v`, most significant first. -/
def msbBits (v : Nat) : Nat → List Bool
  | 0 => []
  | n + 1 => v.testBit n :: msbBits v n

/-- The bits of a byte string, each byte most significant bit first. -/
def bitsOfBytes : List Nat → List Bool
  | [] => []
  | x :: xs => msbBits x 8 ++ bitsOfBytes xs

namespace ByteBuffer

/-- The write-side bit state: `pend` are the bits written into the accumulator
since the last byte boundary, held in its high-order bits; the block is not
null and holds the bytes written. -/
def PendingBits (b : ByteBuffer) (pend : List Bool) : Prop :=
  pend.length < 8 ∧ b.bitpos = 8 - pend.length ∧
    b.curbitval = bitsVal pend * 2 ^ (8 - pend.length) ∧ b.wpos ≤ b.length ∧
    b.null = false

/-- The bits `readBit` is going to deliver: the unread low-order bits of the
current byte, then the bits of the bytes from `rpos` on. -/
def readStream (b : ByteBuffer) : List Bool :=
  msbBits b.curbitval (7 - b.bitpos) ++ bitsOfBytes (b.data.drop b.rpos)

end ByteBuffer

/-! ## Further operations -/

/-- The conversion `(int)` of a floating-point value, the value taken as an exact
rational: the fractional part is discarded, rounding toward zero. -/
def floatToInt (q : ℚ) : Int := if 0 ≤ q then ⌊q⌋ else ⌈q⌉

/-- The 32-bit pattern of an `int` in two-complement representation. -/
def toUInt32 (t : Int) : Nat := (t % (2 : Int) ^ 32).toNat

/-- The class `WorldPacket`: a `ByteBuffer` with the field `m_opcode`. The
enumeration `Opcodes` is not under src; its values are taken as numbers. -/
structure WorldPacket extends ByteBuffer where
  m_opcode : Nat
deriving DecidableEq

namespace ByteBuffer

/-- The copy constructor `ByteBuffer(const ByteBuffer &buffer)`. The member
initialisers are `rpos(buffer.rpos), wpos(buffer.rpos), bitpos(buffer.bitpos),
curbitval(buffer.curbitval)`; the body allocates `buffer.length` bytes and
copies them. -/
def copy (buffer : ByteBuffer) : ByteBuffer :=
  let b0 := _newAllocation
    { rpos := buffer.rpos, wpos := buffer.rpos, bitpos := buffer.bitpos,
      curbitval := buffer.curbitval, data := [], null := true } buffer.length true
  { b0 with data := memcpy b0.data 0 (memRead buffer.data 0 b0.length) }

/-- The member `clear(size)`: cursors and bit state reset, the block resized to
`size` bytes and zeroed. With `size = 0` the block is freed and `data` is left
null; the `memset` of zero bytes stores nothing. -/
def clear (size : Nat) (b : ByteBuffer) : ByteBuffer :=
  { rpos := 0, wpos := 0, bitpos := 8, curbitval := 0,
    data := (realloc b.data size).map (fun _ => 0), null := reallocNull b.null size }

/-- The member `put<T>(pos, value)`: no bounds check. -/
def put (T : IntType) (pos : Nat) (value : Int) (b : ByteBuffer) : ByteBuffer :=
  { b with data := memcpy b.data pos (toWire T value) }

/-- The raw `read(uint8 *dest, size_t len)`: the bytes stored at `dest`. The sum
`rpos + len` of the guard and of the update is `size_t` arithmetic. -/
def readBytes (len : Nat) (b : ByteBuffer) : Outcome (List Nat) :=
  if (b.rpos + len) % SIZE_MOD > b.length then .raised ⟨false, b.rpos, len, b.length⟩ b
  else .ok (memRead b.data b.rpos len) { b with rpos := (b.rpos + len) % SIZE_MOD }

/-- The member `read_skip(size_t skip)`. The sum `rpos + skip` of the guard and
of the update is `size_t` arithmetic. -/
def read_skip (skip : Nat) (b : ByteBuffer) : Outcome Unit :=
  if (b.rpos + skip) % SIZE_MOD > b.length then .raised ⟨false, b.rpos, skip, b.length⟩ b
  else .ok () { b with rpos := (b.rpos + skip) % SIZE_MOD }

/-- The member `rfinish()`. -/
def rfinish (b : ByteBuffer) : ByteBuffer := { b with rpos := b.wpos }

/-- The member `operator[](size_t pos) const`: the guard is `pos > length`. -/
def operatorIndex (pos : Nat) (b : ByteBuffer) : Except ByteBufferException Nat :=
  if pos > b.length then .error ⟨false, pos, 1, b.length⟩
  else .ok (ofWire .uint8 (memRead b.data pos 1)).toNat

/-- The member `operator<<(const std::string &value)`; `value` is the string as
its bytes, `c_str()` is these bytes followed by a zero byte. It grows to
`wpos + elements + 10` and does not call `flushBits`. -/
def appendString (value : List Nat) (b : ByteBuffer) : ByteBuffer :=
  let elements := value.length + 1
  let b1 := if b.wpos + elements > b.length
    then b._newAllocation (b.wpos + elements) false else b
  { b1 with data := memcpy b1.data b1.wpos (value ++ [0]), wpos := b1.wpos + elements }

/-- The loop `while (ReadPos() < size())` of `operator>>(std::string&)`, with the
string read so far; a `char` is identified with its byte. Every iteration
advances `rpos` by one, so `length - rpos` bounds the number of iterations
(first argument). -/
def readStringLoop : Nat → List Nat → ByteBuffer → Outcome (List Nat)
  | 0, value, b => .ok value b
  | fuel + 1, value, b =>
    if b.rpos < b.length then
      match read .uint8 b with
      | .ok c b1 =>
        if c = 0 then .ok value b1
        else readStringLoop fuel (value ++ [c.toNat % 256]) b1
      | .raised e b1 => .raised e b1
    else .ok value b

/-- The member `operator>>(std::string &value)`: the string left in `value`. -/
def readString (b : ByteBuffer) : Outcome (List Nat) :=
  readStringLoop (b.length - b.rpos) [] b

/-- The member `ReadByteMask(uint8 &b)`: the value left in `b`. -/
def ReadByteMask (b : ByteBuffer) : Outcome Nat :=
  match readBit b with
  | .ok bit b1 => .ok (if bit then 1 else 0) b1
  | .raised e b1 => .raised e b1

/-- The member `ReadByteSeq(uint8 &b)`: `x` is the value of `b` on entry, the
result the value left in it. -/
def ReadByteSeq (x : Nat) (b : ByteBuffer) : Outcome Nat :=
  if x ≠ 0 then
    match read .uint8 b with
    | .ok v b1 => .ok ((x ^^^ (v.toNat % 256)) % 256) b1
    | .raised e b1 => .raised e b1
  else .ok x b

/-- The member `WriteByteMask(uint8 b)`. -/
def WriteByteMask (x : Nat) (b : ByteBuffer) : ByteBuffer :=
  (writeBit x b).2

/-- The member `WriteByteSeq(uint8 b)`. -/
def WriteByteSeq (x : Nat) (b : ByteBuffer) : ByteBuffer :=
  if x ≠ 0 then append .uint8 ((x ^^^ 1 : Nat) : Int) b else b

/-- The member `appendPackXYZ(float x, float y, float z)`, the coordinates taken
as exact rationals; `0.25f` is `1 / 4`. The three `|=` update the `uint32`
`packed`, which `operator<<(uint32)` appends. -/
def appendPackXYZ (x y z : ℚ) (b : ByteBuffer) : ByteBuffer :=
  let packed0 : Nat := 0
  let packed1 : Nat := (packed0 ||| (toUInt32 (floatToInt (x / (1 / 4))) &&& 0x7FF)) % 2 ^ 32
  let packed2 : Nat :=
    (packed1 ||| ((toUInt32 (floatToInt (y / (1 / 4))) &&& 0x7FF) <<< 11)) % 2 ^ 32
  let packed3 : Nat :=
    (packed2 ||| ((toUInt32 (floatToInt (z / (1 / 4))) &&& 0x3FF) <<< 22)) % 2 ^ 32
  append .uint32 (packed3 : Int) b

end ByteBuffer

/-- The copy constructor `WorldPacket(const WorldPacket &packet)`. -/
def WorldPacket.copy (packet : WorldPacket) : WorldPacket :=
  { toByteBuffer := packet.toByteBuffer.copy, m_opcode := packet.m_opcode }

/-! ## Sequences of operations -/

/-- The state after a call that returned, nothing after a call that threw. -/
def Outcome.after {α : Type} : Outcome α → Option ByteBuffer
  | .ok _ b => some b
  | .raised _ _ => none

/-- The public operations of a buffer, with their arguments. -/
inductive Op where
  | append (T : IntType) (value : Int)
  | appendBytes (src : List Nat)
  | appendBuffer (buffer : ByteBuffer)
  | appendSelf
  | appendString (value : List Nat)
  | read (T : IntType)
  | readBytes (len : Nat)
  | read_skip (skip : Nat)
  | rfinish
  | writeBit (bit : Nat)
  | readBit
  | writeBits (value bits : Nat)
  | readBits (bits : Nat)
  | flushBits
  | appendPackGUID (valueMem : Nat → Nat) (guid : Nat)
  | readPackGUID
  | deAllocateLeftover
  | clear (size : Nat)
  | copy

namespace Op

/-- The state of the buffer after the operation, when it does not raise; for
`copy` the state of the copy-constructed buffer. -/
def run : Op → ByteBuffer → Option ByteBuffer
  | append T value, b => some (b.append T value)
  | appendBytes src, b => some (b.appendBytes src)
  | appendBuffer buffer, b => some (ByteBuffer.appendBuffer buffer b).2
  | appendSelf, b => some b.appendSelf
  | appendString value, b => some (b.appendString value)
  | read T, b => (b.read T).after
  | readBytes len, b => (b.readBytes len).after
  | read_skip skip, b => (b.read_skip skip).after
  | rfinish, b => some b.rfinish
  | writeBit bit, b => some (b.writeBit bit).2
  | readBit, b => b.readBit.after
  | writeBits value bits, b => some (b.writeBits value bits)
  | readBits bits, b => (b.readBits bits).after
  | flushBits, b => some b.flushBits
  | appendPackGUID valueMem guid, b => some (b.appendPackGUID valueMem guid)
  | readPackGUID, b => b.readPackGUID.after
  | deAllocateLeftover, b => some b.deAllocateLeftover
  | clear size, b => some (b.clear size)
  | copy, b => some b.copy

/-- Whether the operation is the copy construction. -/
def isCopy : Op → Bool
  | copy => true
  | _ => false

/-- Whether the operation may store bytes in the block: the appends, the bit
writes and `flushBits`. -/
def isStore : Op → Bool
  | append _ _ => true
  | appendBytes _ => true
  | appendBuffer _ => true
  | appendSelf => true
  | appendString _ => true
  | writeBit _ => true
  | writeBits _ _ => true
  | flushBits => true
  | appendPackGUID _ _ => true
  | _ => false

/-- Whether the operation writes bits: `writeBit` or `writeBits`. -/
def isBitWrite : Op → Bool
  | writeBit _ => true
  | writeBits _ _ => true
  | _ => false

end Op

/-- The state after a sequence of operations none of which raises. -/
def runAll : List Op → ByteBuffer → Option ByteBuffer
  | [], b => some b
  | op :: ops, b =>
    match op.run b with
    | some b1 => runAll ops b1
    | none => none

/-- No bit write of the sequence is issued while the bit cursor is 0. -/
def bitWriteSafe : List Op → ByteBuffer → Bool
  | [], _ => true
  | op :: ops, b =>
    (!op.isBitWrite || b.bitpos != 0) &&
      match op.run b with
      | some b1 => bitWriteSafe ops b1
      | none => true

/-- No operation of the sequence that may store bytes is issued while the block
of the buffer is null. -/
def storeSafe : List Op → ByteBuffer → Bool
  | [], _ => true
  | op :: ops, b =>
    (!op.isStore || !b.null) &&
      match op.run b with
      | some b1 => storeSafe ops b1
      | none => true

/-! ## Heap blocks: lemmas -/

theorem realloc_length (d : List Nat) (n : Nat) : (realloc d n).length = n := by
  simp [realloc]; omega

theorem realloc_take (d : List Nat) (n k : Nat) (hk : k ≤ d.length) (hn : k ≤ n) :
    (realloc d n).take k = d.take k := by
  simp only [realloc]
  rw [List.take_append_of_le_length (by simp; omega), List.take_take]
  congr 1; omega

theorem memcpy_length (d : List Nat) (pos : Nat) (src : List Nat) :
    (memcpy d pos src).length = d.length := by
  simp [memcpy]; omega

theorem memcpy_of_le (d : List Nat) (pos : Nat) (src : List Nat)
    (h : pos + src.length ≤ d.length) :
    memcpy d pos src = d.take pos ++ src ++ d.drop (pos + src.length) := by
  unfold memcpy
  apply List.take_of_length_le
  simp; omega

theorem memRead_memcpy (d : List Nat) (pos : Nat) (src : List Nat)
    (h : pos + src.length ≤ d.length) :
    memRead (memcpy d pos src) pos src.length = src := by
  rw [memcpy_of_le d pos src h]
  unfold memRead
  have h1 : (d.take pos).length = pos := by simp; omega
  rw [List.append_assoc, List.drop_append_of_le_length (by omega)]
  rw [List.drop_of_length_le (by omega), List.nil_append, List.take_left' rfl]

theorem take_memcpy (d : List Nat) (pos : Nat) (src : List Nat)
    (h : pos + src.length ≤ d.length) :
    (memcpy d pos src).take (pos + src.length) = d.take pos ++ src := by
  rw [memcpy_of_le d pos src h]
  have h1 : (d.take pos ++ src).length = pos + src.length := by simp; omega
  rw [← h1, List.take_left]

/-! ## Wire representation: lemmas -/

theorem leBytes_length (n v : Nat) : (leBytes n v).length = n := by
  induction n generalizing v with
  | zero => rfl
  | succ n ih => simp [leBytes, ih]

theorem leValue_leBytes (n v : Nat) : leValue (leBytes n v) = v % 256 ^ n := by
  induction n generalizing v with
  | zero => simp [leBytes, leValue, Nat.mod_one]
  | succ n ih =>
    simp only [leBytes, leValue, ih]
    rw [pow_succ, mul_comm (256 ^ n) 256, Nat.mod_mul]

theorem toWire_length (T : IntType) (v : Int) : (toWire T v).length = T.sizeof := by
  simp [toWire, leBytes_length]

theorem ofWire_toWire (T : IntType) (v : Int) (h : T.InRange v) :
    ofWire T (toWire T v) = v := by
  cases T <;>
    simp [IntType.InRange, IntType.isSigned, IntType.bits, IntType.sizeof] at h <;>
    simp [ofWire, toWire, leValue_leBytes, IntType.isSigned, IntType.bits, IntType.sizeof] <;>
    omega

/-! ## Appending bytes: lemmas -/

namespace ByteBuffer

theorem storeBytes_of_not_lt (src : List Nat) (b : ByteBuffer)
    (h : ¬ b.length < b.wpos + src.length) :
    storeBytes src b =
      { b with data := memcpy b.data b.wpos src, wpos := b.wpos + src.length } := by
  simp [storeBytes, h]

theorem storeBytes_of_lt (src : List Nat) (b : ByteBuffer)
    (h : b.length < b.wpos + src.length) (hnull : b.null = false) :
    storeBytes src b =
      { b with data := memcpy (realloc b.data (b.length + src.length + 10)) b.wpos src,
               wpos := b.wpos + src.length } := by
  have h2 : ¬ (b.length + src.length < b.length) := by omega
  simp [storeBytes, _newAllocation, h, h2, hnull]

/-- On a null block `_newAllocation` returns at `!ptr`: the block is not
resized. -/
theorem storeBytes_of_null (src : List Nat) (b : ByteBuffer) (hnull : b.null = true) :
    storeBytes src b =
      { b with data := memcpy b.data b.wpos src, wpos := b.wpos + src.length } := by
  simp only [storeBytes, _newAllocation, hnull]
  split_ifs <;> simp_all

theorem storeBytes_rpos (src : List Nat) (b : ByteBuffer) :
    (storeBytes src b).rpos = b.rpos := by
  simp only [storeBytes, _newAllocation]
  split_ifs <;> rfl

theorem storeBytes_bitpos (src : List Nat) (b : ByteBuffer) :
    (storeBytes src b).bitpos = b.bitpos := by
  simp only [storeBytes, _newAllocation]
  split_ifs <;> rfl

theorem storeBytes_curbitval (src : List Nat) (b : ByteBuffer) :
    (storeBytes src b).curbitval = b.curbitval := by
  simp only [storeBytes, _newAllocation]
  split_ifs <;> rfl

theorem storeBytes_wpos (src : List Nat) (b : ByteBuffer) :
    (storeBytes src b).wpos = b.wpos + src.length := by
  simp only [storeBytes, _newAllocation]
  split_ifs <;> rfl

theorem storeBytes_null (src : List Nat) (b : ByteBuffer) :
    (storeBytes src b).null = b.null := by
  cases hn : b.null
  · by_cases h : b.length < b.wpos + src.length
    · rw [storeBytes_of_lt src b h hn]; exact hn
    · rw [storeBytes_of_not_lt src b h]; exact hn
  · rw [storeBytes_of_null src b hn]; exact hn

theorem storeBytes_length (src : List Nat) (b : ByteBuffer) (hnull : b.null = false) :
    (storeBytes src b).length =
      if b.length < b.wpos + src.length then b.length + src.length + 10 else b.length := by
  by_cases h : b.length < b.wpos + src.length
  · rw [storeBytes_of_lt src b h hnull, if_pos h]
    simp [length, memcpy_length, realloc_length]
  · rw [storeBytes_of_not_lt src b h, if_neg h]
    simp [length, memcpy_length]

/-- On a null block the capacity stays as it is. -/
theorem storeBytes_length_of_null (src : List Nat) (b : ByteBuffer) (hnull : b.null = true) :
    (storeBytes src b).length = b.length := by
  rw [storeBytes_of_null src b hnull]
  simp [length, memcpy_length]

theorem storeBytes_wpos_le (src : List Nat) (b : ByteBuffer) (h : b.wpos ≤ b.length)
    (hnull : b.null = false) :
    (storeBytes src b).wpos ≤ (storeBytes src b).length := by
  rw [storeBytes_wpos, storeBytes_length src b hnull]; split_ifs <;> omega

theorem storeBytes_written (src : List Nat) (b : ByteBuffer) (h : b.wpos ≤ b.length)
    (hnull : b.null = false) :
    (storeBytes src b).written = b.written ++ src := by
  by_cases h1 : b.length < b.wpos + src.length
  · rw [storeBytes_of_lt src b h1 hnull]
    simp only [length] at h h1
    simp only [written, length]
    rw [take_memcpy _ _ _ (by rw [realloc_length]; omega), realloc_take _ _ _ h (by omega)]
  · rw [storeBytes_of_not_lt src b h1]
    simp only [length] at h h1
    simp only [written]
    rw [take_memcpy _ _ _ (by omega)]

theorem storeBytes_memRead (src : List Nat) (b : ByteBuffer) (h : b.wpos ≤ b.length)
    (hnull : b.null = false) :
    memRead (storeBytes src b).data b.wpos src.length = src := by
  by_cases h1 : b.length < b.wpos + src.length
  · rw [storeBytes_of_lt src b h1 hnull]
    simp only [length] at h h1 ⊢
    exact memRead_memcpy _ _ _ (by rw [realloc_length]; omega)
  · rw [storeBytes_of_not_lt src b h1]
    simp only [length] at h h1
    exact memRead_memcpy _ _ _ (by omega)

theorem flushBits_of_bitpos_eight (b : ByteBuffer) (h : b.bitpos = 8) : flushBits b = b := by
  simp [flushBits, h]

/-- The call `append<uint8>(curbitval)` inside `flushBits` and `writeBit` is made
with `bitpos = 8`: its nested `flushBits()` returns at once. -/
theorem append_uint8_of_bitpos_eight (v : Int) (b : ByteBuffer) (h : b.bitpos = 8) :
    append .uint8 v b = storeBytes (toWire .uint8 v) b := by
  simp [append, flushBits_of_bitpos_eight b h]

theorem append_of_bitpos_eight (T : IntType) (v : Int) (b : ByteBuffer) (h : b.bitpos = 8) :
    append T v b = storeBytes (toWire T v) b := by
  simp [append, flushBits_of_bitpos_eight b h]

/-- C1 (defect of the code on a null block). Typed round trip. On a buffer with no pending bits, `wpos ≤ length` and
a block that is not null, for every fixed-width integer type `T` and every
value `v` of `T`, after `append<T>(v)` the positional `read<T>(p)` at the write
position `p` before the append succeeds and returns `v`, and
`wpos = p + sizeof(T)`. The buffer `deAllocateLeftover()` leaves of a fresh one
has no pending bits and `wpos = length = 0`, and its block is null: there
`append<uint8>(1)` calls `_newAllocation`, which returns at `!ptr`, so the block
is null and empty still when `memcpy` stores through it, and no byte can be
read back at position 0. -/
theorem append_readAt_roundtrip (T : IntType) (v : Int) (b : ByteBuffer)
    (hv : T.InRange v) (hbit : b.bitpos = 8) (hw : b.wpos ≤ b.length)
    (hnull : b.null = false) :
    (readAt T b.wpos (append T v b) = .ok v ∧
      (append T v b).wpos = b.wpos + T.sizeof) ∧
    ((deAllocateLeftover ByteBuffer.new).bitpos = 8 ∧
      (deAllocateLeftover ByteBuffer.new).wpos = 0 ∧
      (deAllocateLeftover ByteBuffer.new).length = 0 ∧
      (deAllocateLeftover ByteBuffer.new).null = true ∧
      (append .uint8 1 (deAllocateLeftover ByteBuffer.new)).null = true ∧
      (append .uint8 1 (deAllocateLeftover ByteBuffer.new)).length = 0 ∧
      readAt .uint8 0 (append .uint8 1 (deAllocateLeftover ByteBuffer.new)) =
        .error ⟨false, 0, 1, 0⟩) := by
  refine ⟨?_, by decide, by decide, by decide, by decide, by decide, by decide, rfl⟩
  rw [append_of_bitpos_eight T v b hbit]
  have hlen := storeBytes_wpos_le (toWire T v) b hw hnull
  rw [storeBytes_wpos, toWire_length] at hlen
  refine ⟨?_, by rw [storeBytes_wpos, toWire_length]⟩
  have hrd := storeBytes_memRead (toWire T v) b hw hnull
  rw [toWire_length] at hrd
  simp only [readAt]
  rw [if_neg (by omega), hrd, ofWire_toWire T v hv]

/-- Witness for C1: `append<int16>(-2)` on a fresh buffer, read back at 0. -/
theorem append_readAt_roundtrip_witness :
    IntType.int16.InRange (-2) ∧ ByteBuffer.new.bitpos = 8 ∧
      ByteBuffer.new.wpos ≤ ByteBuffer.new.length ∧ ByteBuffer.new.null = false ∧
      readAt .int16 ByteBuffer.new.wpos (append .int16 (-2) ByteBuffer.new) = .ok (-2) ∧
      (append .int16 (-2) ByteBuffer.new).wpos = ByteBuffer.new.wpos + IntType.int16.sizeof :=
  ⟨by decide, by decide, by decide, by decide,
    (append_readAt_roundtrip .int16 (-2) ByteBuffer.new (by decide) (by decide) (by decide)
      (by decide)).1⟩

end ByteBuffer

/-! ## Wire order -/

theorem mod_256_eq_and (u : Nat) : u % 256 = u &&& 0xFF := by
  have h := Nat.and_pow_two_sub_one_eq_mod u 8
  simpa using h.symm

theorem leBytes_eq_shift (n u : Nat) :
    leBytes n u = (List.range n).map (fun i => (u >>> (8 * i)) &&& 0xFF) := by
  induction n generalizing u with
  | zero => rfl
  | succ n ih =>
    rw [List.range_succ_eq_map, List.map_cons, List.map_map, leBytes, ih]
    congr 1
    · simp [mod_256_eq_and]
    · apply List.map_congr_left
      intro i _
      simp only [Function.comp, Nat.succ_eq_add_one]
      rw [Nat.shiftRight_eq_div_pow, Nat.shiftRight_eq_div_pow, Nat.div_div_eq_div_mul,
        Nat.mul_add, pow_add, Nat.mul_comm (2 ^ (8 * i))]
      norm_num

namespace ByteBuffer

/-- C2 (defect of the code on a null block). Little-endian wire order. On a
buffer with no pending bits, `wpos ≤ length` and a block that is not null,
`append<T>` stores the bytes of the value least significant first, byte `i` of
the representation at offset `p + i`; for an unsigned 32-bit `w` these are
`w & 0xFF`, `(w >> 8) & 0xFF`, `(w >> 16) & 0xFF`, `(w >> 24) & 0xFF`; and
appending `0x12345678` to a fresh buffer writes `78 56 34 12`. On the buffer `clear(0)` leaves of a fresh one (no
pending bits, block null) `append<uint32>(0x12345678)` calls `_newAllocation`,
which returns at `!ptr`: the block is null and empty still when `memcpy` stores
through it, and none of the four bytes is in the block. -/
theorem append_wire_order (T : IntType) (v : Int) (w : Nat) (b : ByteBuffer)
    (hbit : b.bitpos = 8) (hw : b.wpos ≤ b.length) (hnull : b.null = false)
    (hw32 : w < 2 ^ 32) :
    (memRead (append T v b).data b.wpos T.sizeof =
        (List.range T.sizeof).map
          (fun i => ((v % (2 : Int) ^ T.bits).toNat >>> (8 * i)) &&& 0xFF) ∧
      memRead (append .uint32 (w : Int) b).data b.wpos 4 =
        [w &&& 0xFF, (w >>> 8) &&& 0xFF, (w >>> 16) &&& 0xFF, (w >>> 24) &&& 0xFF] ∧
      (append .uint32 0x12345678 ByteBuffer.new).written = [0x78, 0x56, 0x34, 0x12]) ∧
    ((clear 0 ByteBuffer.new).bitpos = 8 ∧ (clear 0 ByteBuffer.new).wpos = 0 ∧
      (clear 0 ByteBuffer.new).null = true ∧
      (append .uint32 0x12345678 (clear 0 ByteBuffer.new)).null = true ∧
      (append .uint32 0x12345678 (clear 0 ByteBuffer.new)).length = 0 ∧
      memRead (append .uint32 0x12345678 (clear 0 ByteBuffer.new)).data 0 4 = []) := by
  refine ⟨?_, by decide⟩
  have key : ∀ (T : IntType) (v : Int),
      memRead (append T v b).data b.wpos T.sizeof =
        (List.range T.sizeof).map
          (fun i => ((v % (2 : Int) ^ T.bits).toNat >>> (8 * i)) &&& 0xFF) := by
    intro T v
    rw [append_of_bitpos_eight T v b hbit]
    have hrd := storeBytes_memRead (toWire T v) b hw hnull
    rw [toWire_length] at hrd
    rw [hrd, toWire, leBytes_eq_shift]
  refine ⟨key T v, ?_, by decide⟩
  have h := key .uint32 (w : Int)
  have hu : ((w : Int) % (2 : Int) ^ IntType.uint32.bits).toNat = w := by
    simp only [IntType.bits, IntType.sizeof]; omega
  rw [hu] at h
  simpa [IntType.sizeof, List.range_succ] using h

/-- Witness for C2: `append<uint64>` on a buffer with two bytes written. -/
theorem append_wire_order_witness :
    (append .uint8 7 (append .uint8 9 ByteBuffer.new)).bitpos = 8 ∧
      (append .uint8 7 (append .uint8 9 ByteBuffer.new)).null = false ∧
      memRead (append .uint64 0x0102030405060708
          (append .uint8 7 (append .uint8 9 ByteBuffer.new))).data 2 8 =
        [8, 7, 6, 5, 4, 3, 2, 1] :=
  ⟨by decide, by decide, by
    have h := (append_wire_order .uint64 0x0102030405060708 0
      (append .uint8 7 (append .uint8 9 ByteBuffer.new)) (by decide) (by decide) (by decide)
      (by decide)).1.1
    simpa [IntType.sizeof, IntType.bits, List.range_succ] using h⟩

end ByteBuffer

/-! ## Bit strings: lemmas -/

theorem msbBits_length (v n : Nat) : (msbBits v n).length = n := by
  induction n with
  | zero => rfl
  | succ n ih => simp [msbBits, ih]

theorem bitsVal_lt (l : List Bool) : bitsVal l < 2 ^ l.length := by
  induction l with
  | nil => simp [bitsVal]
  | cons x xs ih =>
    simp only [bitsVal, List.length_cons, pow_succ]
    split_ifs <;> omega

theorem bitsVal_append_singleton (l : List Bool) (x : Bool) :
    bitsVal (l ++ [x]) = 2 * bitsVal l + (if x then 1 else 0) := by
  induction l with
  | nil => cases x <;> simp [bitsVal]
  | cons y ys ih =>
    rw [List.cons_append, bitsVal, bitsVal, ih]
    simp only [List.length_append, List.length_singleton, pow_succ]
    cases y <;> simp; omega

theorem msbBits_congr (u v n : Nat) (h : ∀ i, i < n → u.testBit i = v.testBit i) :
    msbBits u n = msbBits v n := by
  induction n with
  | zero => rfl
  | succ n ih =>
    simp only [msbBits]
    rw [h n (by omega), ih (fun i hi => h i (by omega))]

theorem msbBits_mod (v n k : Nat) (h : n ≤ k) : msbBits (v % 2 ^ k) n = msbBits v n := by
  apply msbBits_congr
  intro i hi
  rw [Nat.testBit_mod_two_pow]
  simp; intro; omega

theorem bitsVal_msbBits (v n : Nat) : bitsVal (msbBits v n) = v % 2 ^ n := by
  induction n with
  | zero => simp [msbBits, bitsVal, Nat.mod_one]
  | succ n ih =>
    simp only [msbBits, bitsVal, ih, msbBits_length]
    have h1 := Nat.toNat_testBit v n
    have h2 : v % 2 ^ (n + 1) = 2 ^ n * (v / 2 ^ n % 2) + v % 2 ^ n := by
      rw [pow_succ, Nat.mod_mul]; omega
    rw [h2, ← h1]
    cases v.testBit n <;> simp

theorem msbBits_bitsVal (l : List Bool) : msbBits (bitsVal l) l.length = l := by
  induction l with
  | nil => rfl
  | cons x xs ih =>
    have hlt := bitsVal_lt xs
    simp only [List.length_cons, msbBits, bitsVal]
    congr 1
    · cases x
      · simp [Nat.testBit_lt_two_pow hlt]
      · simp [Nat.testBit_two_pow_add_eq, Nat.testBit_lt_two_pow hlt]
    · cases x
      · simpa using ih
      · simp only [if_true]
        rw [msbBits_congr _ (bitsVal xs) _ (fun i hi => Nat.testBit_two_pow_add_gt hi _), ih]

theorem msbBits_add (v m k : Nat) : msbBits v (m + k) = msbBits (v >>> k) m ++ msbBits v k := by
  induction m with
  | zero => simp [msbBits]
  | succ m ih =>
    rw [show m + 1 + k = (m + k) + 1 by omega]
    simp only [msbBits, ih, List.cons_append]
    rw [Nat.testBit_shiftRight, Nat.add_comm k m]

theorem msbBits_zero (n : Nat) : msbBits 0 n = List.replicate n false := by
  induction n with
  | zero => rfl
  | succ n ih => simp [msbBits, ih, List.replicate_succ]

theorem msbBits_mul_two_pow (c k m : Nat) :
    msbBits (c * 2 ^ m) (k + m) = msbBits c k ++ List.replicate m false := by
  rw [msbBits_add]
  congr 1
  · rw [Nat.shiftRight_eq_div_pow, Nat.mul_div_cancel _ (by positivity)]
  · rw [← msbBits_zero m]
    apply msbBits_congr
    intro i hi
    rw [Nat.mul_comm, Nat.testBit_mul_pow_two]
    simp; omega

theorem msbBits_getD (v n j : Nat) (hj : j < n) :
    (msbBits v n).getD j false = v.testBit (n - 1 - j) := by
  induction n generalizing j with
  | zero => omega
  | succ n ih =>
    cases j with
    | zero => simp [msbBits]
    | succ j =>
      simp only [msbBits, List.getD_cons_succ]
      rw [ih j (by omega)]
      congr 1; omega

theorem bitsOfBytes_append (l1 l2 : List Nat) :
    bitsOfBytes (l1 ++ l2) = bitsOfBytes l1 ++ bitsOfBytes l2 := by
  induction l1 with
  | nil => rfl
  | cons x xs ih => simp [bitsOfBytes, ih]

theorem bitsOfBytes_length (l : List Nat) : (bitsOfBytes l).length = 8 * l.length := by
  induction l with
  | nil => rfl
  | cons x xs ih => simp [bitsOfBytes, ih, msbBits_length]; omega

theorem bitsOfBytes_getD (l : List Nat) (j : Nat) (hj : j < 8 * l.length) :
    (bitsOfBytes l).getD j false = (l.getD (j / 8) 0).testBit (7 - j % 8) := by
  induction l generalizing j with
  | nil => simp at hj
  | cons x xs ih =>
    simp only [bitsOfBytes]
    by_cases h : j < 8
    · rw [List.getD_append _ _ _ _ (by rw [msbBits_length]; exact h), msbBits_getD _ _ _ h]
      have h0 : j / 8 = 0 := by omega
      have h1 : j % 8 = j := by omega
      simp [h0, h1]
    · rw [List.getD_append_right _ _ _ _ (by rw [msbBits_length]; omega), msbBits_length,
        ih (j - 8) (by simp at hj; omega)]
      have h0 : j / 8 = (j - 8) / 8 + 1 := by omega
      have h1 : j % 8 = (j - 8) % 8 := by omega
      rw [h0, h1, List.getD_cons_succ]

/-! ## Writing bits -/

theorem toWire_uint8 (n : Nat) : toWire .uint8 (n : Int) = [n % 256] := by
  have h : ((n : Int) % (2 : Int) ^ IntType.uint8.bits).toNat = n % 256 := by
    simp only [IntType.bits, IntType.sizeof]; omega
  simp [toWire, h, IntType.sizeof, leBytes]

theorem decide_shift_and_one (v n : Nat) :
    decide ((v >>> n) &&& 1 ≠ 0) = v.testBit n := by
  rw [Nat.testBit_to_div_mod, Nat.and_one_is_mod, Nat.shiftRight_eq_div_pow]
  have h : v / 2 ^ n % 2 < 2 := Nat.mod_lt _ (by norm_num)
  by_cases h1 : v / 2 ^ n % 2 = 1 <;> simp [h1]

/-- The accumulator after one more bit: `c` are the `p` bits already held. -/
theorem accumulator_step (c p : Nat) (hp : p < 8) (hc : c < 2 ^ p) :
    (c * 2 ^ (8 - p) ||| 1 <<< (7 - p)) % 256 = (2 * c + 1) * 2 ^ (7 - p) ∧
      c * 2 ^ (8 - p) = (2 * c) * 2 ^ (7 - p) := by
  have hor : c * 2 ^ (8 - p) ||| 1 <<< (7 - p) = c * 2 ^ (8 - p) + 2 ^ (7 - p) := by
    rw [Nat.one_shiftLeft, Nat.mul_comm,
      ← Nat.mul_add_lt_is_or (Nat.pow_lt_pow_right (by norm_num) (by omega))]
  rw [hor]
  interval_cases p <;> simp at hc ⊢ <;> omega

namespace ByteBuffer

theorem writeBit_pending (bit : Nat) (b : ByteBuffer) (pend : List Bool)
    (h : PendingBits b pend) :
    ∃ app pend1, (writeBit bit b).2.written = b.written ++ app ∧
      PendingBits (writeBit bit b).2 pend1 ∧
      pend ++ [decide (bit ≠ 0)] = bitsOfBytes app ++ pend1 ∧
      (writeBit bit b).2.rpos = b.rpos ∧ (∀ x ∈ app, x < 256) := by
  obtain ⟨hp, hpos, hcur, hw, hnull⟩ := h
  have hlt := bitsVal_lt pend
  have hsub : sizeSub b.bitpos 1 = 7 - pend.length := by
    simp only [sizeSub, hpos]; rw [if_pos (by omega)]; omega
  obtain ⟨hacc1, hacc0⟩ := accumulator_step (bitsVal pend) pend.length hp hlt
  have hcur1 : (if bit ≠ 0 then (b.curbitval ||| 1 <<< (7 - pend.length)) % 256
      else b.curbitval) = bitsVal (pend ++ [decide (bit ≠ 0)]) * 2 ^ (7 - pend.length) := by
    rw [bitsVal_append_singleton, hcur]
    by_cases hb : bit = 0
    · simp [hb, hacc0]
    · simp [hb, hacc1]
  have hlt1 := bitsVal_lt (pend ++ [decide (bit ≠ 0)])
  simp only [writeBit, hsub, hcur1]
  by_cases h7 : 7 - pend.length = 0
  · have hlen : (pend ++ [decide (bit ≠ 0)]).length = 8 := by
      simp only [List.length_append, List.length_singleton]; omega
    rw [hlen] at hlt1
    rw [if_pos h7, h7, pow_zero, Nat.mul_one, append_uint8_of_bitpos_eight _ _ rfl, toWire_uint8,
      Nat.mod_eq_of_lt (by omega)]
    refine ⟨[bitsVal (pend ++ [decide (bit ≠ 0)])], [], ?_, ?_, ?_, ?_, ?_⟩
    · exact storeBytes_written _ _ hw hnull
    · refine ⟨by simp, ?_, by simp [bitsVal], ?_, ?_⟩
      · simp [storeBytes_bitpos]
      · exact storeBytes_wpos_le _ _ hw hnull
      · simp [storeBytes_null, hnull]
    · have := msbBits_bitsVal (pend ++ [decide (bit ≠ 0)])
      rw [hlen] at this
      simp only [bitsOfBytes, List.append_nil]
      exact this.symm
    · simp [storeBytes_rpos]
    · intro x hx
      simp only [List.mem_singleton] at hx
      omega
  · rw [if_neg h7]
    refine ⟨[], pend ++ [decide (bit ≠ 0)], by simp [written], ?_, by simp [bitsOfBytes], rfl,
      by simp⟩
    refine ⟨by simp only [List.length_append, List.length_singleton]; omega, ?_, ?_, hw, hnull⟩
    · simp only [List.length_append, List.length_singleton]; omega
    · simp only [List.length_append, List.length_singleton]
      rw [show 8 - (pend.length + 1) = 7 - pend.length by omega]

theorem writeBits_pending (v n : Nat) (b : ByteBuffer) (pend : List Bool)
    (h : PendingBits b pend) :
    ∃ app pend1, (writeBits v n b).written = b.written ++ app ∧
      PendingBits (writeBits v n b) pend1 ∧
      pend ++ msbBits v n = bitsOfBytes app ++ pend1 ∧
      (writeBits v n b).rpos = b.rpos ∧ (∀ x ∈ app, x < 256) := by
  induction n generalizing b pend with
  | zero =>
    exact ⟨[], pend, by simp [writeBits], h, by simp [msbBits, bitsOfBytes], rfl, by simp⟩
  | succ n ih =>
    obtain ⟨app1, pend1, hw1, hp1, hs1, hr1, hb1⟩ := writeBit_pending ((v >>> n) &&& 1) b pend h
    obtain ⟨app2, pend2, hw2, hp2, hs2, hr2, hb2⟩ := ih _ pend1 hp1
    rw [decide_shift_and_one] at hs1
    refine ⟨app1 ++ app2, pend2, ?_, hp2, ?_, ?_, ?_⟩
    · simp only [writeBits]; rw [hw2, hw1, List.append_assoc]
    · rw [bitsOfBytes_append, List.append_assoc, ← hs2, ← List.append_assoc, ← hs1]
      simp [msbBits]
    · simp only [writeBits]; rw [hr2, hr1]
    · intro x hx
      rcases List.mem_append.1 hx with hx | hx
      · exact hb1 x hx
      · exact hb2 x hx

theorem flushBits_pending (b : ByteBuffer) (pend : List Bool) (h : PendingBits b pend) :
    ∃ app pad, (flushBits b).written = b.written ++ app ∧
      bitsOfBytes app = pend ++ List.replicate pad false ∧ pad < 8 ∧
      (flushBits b).bitpos = 8 ∧ (flushBits b).curbitval = 0 ∧
      (flushBits b).wpos ≤ (flushBits b).length ∧ (flushBits b).rpos = b.rpos ∧
      (∀ x ∈ app, x < 256) := by
  obtain ⟨hp, hpos, hcur, hw, hnull⟩ := h
  have hlt := bitsVal_lt pend
  by_cases h0 : pend.length = 0
  · have hnil : pend = [] := List.length_eq_zero.1 h0
    subst hnil
    have h8 : b.bitpos = 8 := by simpa using hpos
    rw [flushBits_of_bitpos_eight b h8]
    exact ⟨[], 0, by simp, by simp [bitsOfBytes], by omega, h8, by simpa [bitsVal] using hcur,
      hw, rfl, by simp⟩
  · have hne : b.bitpos ≠ 8 := by omega
    have hc256 : b.curbitval < 256 := by
      rw [hcur]
      calc bitsVal pend * 2 ^ (8 - pend.length)
          < 2 ^ pend.length * 2 ^ (8 - pend.length) :=
            Nat.mul_lt_mul_of_pos_right hlt (by positivity)
        _ = 256 := by rw [← pow_add, show pend.length + (8 - pend.length) = 8 by omega]; norm_num
    have hfl : flushBits b =
        { storeBytes [b.curbitval] { b with bitpos := 8 } with curbitval := 0 } := by
      simp only [flushBits, if_neg hne, toWire_uint8, Nat.mod_eq_of_lt hc256]
    rw [hfl]
    refine ⟨[b.curbitval], 8 - pend.length, ?_, ?_, by omega, ?_, rfl, ?_, ?_, ?_⟩
    · exact storeBytes_written _ _ hw hnull
    · have := msbBits_mul_two_pow (bitsVal pend) pend.length (8 - pend.length)
      rw [show pend.length + (8 - pend.length) = 8 by omega, msbBits_bitsVal] at this
      simp [bitsOfBytes, hcur, this]
    · simp [storeBytes_bitpos]
    · exact storeBytes_wpos_le _ _ hw hnull
    · simp [storeBytes_rpos]
    · intro x hx
      simp only [List.mem_singleton] at hx
      omega

theorem writeBits_flushBits_stream (v n : Nat) (b : ByteBuffer)
    (hbit : b.bitpos = 8) (hcur : b.curbitval = 0) (hw : b.wpos ≤ b.length)
    (hnull : b.null = false) :
    ∃ app pad, (flushBits (writeBits v n b)).written = b.written ++ app ∧
      bitsOfBytes app = msbBits v n ++ List.replicate pad false ∧ pad < 8 ∧
      (flushBits (writeBits v n b)).bitpos = 8 ∧ (flushBits (writeBits v n b)).curbitval = 0 ∧
      (flushBits (writeBits v n b)).wpos ≤ (flushBits (writeBits v n b)).length ∧
      (flushBits (writeBits v n b)).rpos = b.rpos ∧ (∀ x ∈ app, x < 256) := by
  have h0 : PendingBits b [] :=
    ⟨by simp, by simpa using hbit, by simpa [bitsVal] using hcur, hw, hnull⟩
  obtain ⟨app1, pend1, hw1, hp1, hs1, hr1, hb1⟩ := writeBits_pending v n b [] h0
  obtain ⟨app2, pad, hw2, hs2, hpad, h8, hc, hwl, hr2, hb2⟩ := flushBits_pending _ pend1 hp1
  refine ⟨app1 ++ app2, pad, ?_, ?_, hpad, h8, hc, hwl, by rw [hr2, hr1], ?_⟩
  · rw [hw2, hw1, List.append_assoc]
  · rw [bitsOfBytes_append, hs2, ← List.append_assoc, ← hs1, List.nil_append]
  · intro x hx
    rcases List.mem_append.1 hx with hx | hx
    · exact hb1 x hx
    · exact hb2 x hx

end ByteBuffer

/-! ## Reading bits -/

theorem ofWire_uint8_singleton (y : Nat) : ofWire .uint8 [y] = (y : Int) := by
  simp [ofWire, IntType.isSigned, leValue]

theorem byte_eq_of_msbBits (x u : Nat) (hx : x < 256) (h : msbBits x 8 = msbBits u 8) :
    x = u % 256 := by
  have h1 := congrArg bitsVal h
  rw [bitsVal_msbBits, bitsVal_msbBits] at h1
  norm_num at h1
  omega

namespace ByteBuffer

theorem readBit_stream (b : ByteBuffer) (x : Bool) (s : List Bool)
    (hbp : b.bitpos ≤ 8) (hs : readStream b = x :: s) :
    ∃ b1, readBit b = .ok x b1 ∧ readStream b1 = s ∧ b1.bitpos ≤ 8 ∧
      b1.data = b.data ∧ b1.wpos = b.wpos := by
  have hmod : (b.bitpos + 1) % SIZE_MOD = b.bitpos + 1 := by
    apply Nat.mod_eq_of_lt
    simp only [SIZE_MOD]; omega
  simp only [readBit, hmod]
  by_cases h7 : b.bitpos + 1 > 7
  · rw [if_pos h7]
    simp only [readStream] at hs
    rw [show 7 - b.bitpos = 0 by omega] at hs
    simp only [msbBits, List.nil_append] at hs
    cases hd : b.data.drop b.rpos with
    | nil => rw [hd] at hs; simp [bitsOfBytes] at hs
    | cons y ys =>
      rw [hd] at hs
      simp only [bitsOfBytes, msbBits, List.cons_append, List.cons.injEq] at hs
      obtain ⟨hx, hs⟩ := hs
      have hlen : b.rpos < b.data.length := by
        by_contra hcon
        rw [List.drop_of_length_le (by omega)] at hd
        simp at hd
      have hsub : sizeSub b.data.length b.rpos = b.data.length - b.rpos := by
        simp only [sizeSub]; rw [if_pos (by omega)]
      have hmr : memRead b.data b.rpos 1 = [y] := by
        simp [memRead, hd]
      have hys : b.data.drop (b.rpos + 1) = ys := by
        rw [← List.drop_drop, hd]; rfl
      have hy7 : (y % 256).testBit 7 = y.testBit 7 := by
        rw [show (256 : Nat) = 2 ^ 8 by norm_num, Nat.testBit_mod_two_pow]; simp
      have hm7 : msbBits (y % 256) 7 = msbBits y 7 := by
        rw [show (256 : Nat) = 2 ^ 8 by norm_num, msbBits_mod y 7 8 (by omega)]
      simp only [read, length, hsub, IntType.sizeof]
      rw [if_neg (by omega), hmr, ofWire_uint8_singleton]
      refine ⟨{ b with rpos := b.rpos + 1, bitpos := 0, curbitval := y % 256 },
        ?_, ?_, by simp, rfl, rfl⟩
      · simp only [Int.toNat_ofNat, Nat.sub_zero, decide_shift_and_one, hy7, hx]
      · simp only [readStream, Nat.sub_zero, hys, hm7]
        simpa [msbBits] using hs
  · rw [if_neg h7]
    simp only [readStream] at hs
    rw [show 7 - b.bitpos = (7 - (b.bitpos + 1)) + 1 by omega] at hs
    simp only [msbBits, List.cons_append, List.cons.injEq] at hs
    obtain ⟨hx, hs⟩ := hs
    refine ⟨{ b with bitpos := b.bitpos + 1 }, ?_, ?_, by simp; omega, rfl, rfl⟩
    · simp only [decide_shift_and_one, hx]
    · simpa [readStream] using hs

theorem readBitsLoop_stream (l s : List Bool) (val : Nat) (b : ByteBuffer)
    (hbp : b.bitpos ≤ 8) (hs : readStream b = l ++ s)
    (hval : 2 ^ l.length ∣ val) (hbound : val + 2 ^ l.length ≤ 2 ^ 32) :
    ∃ b1, readBitsLoop l.length val b = .ok (val + bitsVal l) b1 ∧ readStream b1 = s ∧
      b1.bitpos ≤ 8 ∧ b1.data = b.data ∧ b1.wpos = b.wpos := by
  induction l generalizing val b with
  | nil => exact ⟨b, by simp [readBitsLoop, bitsVal], by simpa using hs, hbp, rfl, rfl⟩
  | cons x xs ih =>
    obtain ⟨b1, hrb, hs1, hbp1, hd1, hw1⟩ :=
      readBit_stream b x (xs ++ s) hbp (by simpa using hs)
    simp only [List.length_cons, pow_succ] at hval hbound
    obtain ⟨a, ha⟩ := hval
    have hpos : 0 < 2 ^ xs.length := by positivity
    have hnew : (if x then (val ||| 1 <<< xs.length) % 2 ^ 32 else val) =
        val + (if x then 2 ^ xs.length else 0) := by
      cases x
      · simp
      · simp only [if_true]
        have hor : val ||| 1 <<< xs.length = val + 2 ^ xs.length := by
          rw [Nat.one_shiftLeft, ha, ← pow_succ,
            ← Nat.mul_add_lt_is_or (Nat.pow_lt_pow_right (by norm_num) (by omega))]
        rw [hor, Nat.mod_eq_of_lt (by omega)]
    obtain ⟨b2, hrl, hs2, hbp2, hd2, hw2⟩ :=
      ih (val + (if x then 2 ^ xs.length else 0)) b1 hbp1 hs1
      (by
        apply Dvd.dvd.add
        · exact ⟨2 * a, by rw [ha]; ring⟩
        · split_ifs <;> simp)
      (by split_ifs <;> omega)
    refine ⟨b2, ?_, hs2, hbp2, by rw [hd2, hd1], by rw [hw2, hw1]⟩
    simp only [List.length_cons, readBitsLoop, hrb, hnew, hrl, bitsVal]
    rw [Nat.add_assoc]

theorem readBits_writeBits_general (w v : Nat) (b : ByteBuffer) (hw32 : w ≤ 32) (hv : v < 2 ^ w)
    (hr : b.rpos = b.wpos) (hbit : b.bitpos = 8) (hcur : b.curbitval = 0)
    (hw : b.wpos ≤ b.length) (hnull : b.null = false) :
    ∃ b1, readBits w (flushBits (writeBits v w b)) = .ok v b1 := by
  obtain ⟨app, pad, hwr, hbits, _, h8, hc, hwl, hrp, _⟩ :=
    writeBits_flushBits_stream v w b hbit hcur hw hnull
  have hdata : (flushBits (writeBits v w b)).data.drop b.wpos =
      app ++ (flushBits (writeBits v w b)).data.drop (flushBits (writeBits v w b)).wpos := by
    have h1 := List.take_append_drop (flushBits (writeBits v w b)).wpos
      (flushBits (writeBits v w b)).data
    simp only [written] at hwr
    rw [hwr] at h1
    have h2 : (b.data.take b.wpos).length = b.wpos := by
      simp only [length] at hw; simp; omega
    conv_lhs => rw [← h1]
    rw [List.append_assoc, List.drop_append_of_le_length (by omega),
      List.drop_of_length_le (by omega), List.nil_append]
  have hstream : readStream (flushBits (writeBits v w b)) =
      msbBits v w ++ (List.replicate pad false ++
        bitsOfBytes ((flushBits (writeBits v w b)).data.drop
          (flushBits (writeBits v w b)).wpos)) := by
    simp only [readStream, h8, hc, hrp, hr, hdata, bitsOfBytes_append, hbits]
    simp [msbBits]
  obtain ⟨b1, hrl, _⟩ := readBitsLoop_stream (msbBits v w) _ 0 _ (by omega) hstream (by simp)
    (by
      rw [msbBits_length]
      have : 2 ^ w ≤ 2 ^ 32 := Nat.pow_le_pow_right (by norm_num) hw32
      omega)
  refine ⟨b1, ?_⟩
  rw [msbBits_length, bitsVal_msbBits, Nat.mod_eq_of_lt hv, Nat.zero_add] at hrl
  exact hrl

end ByteBuffer

/-! ## Bit packing: C5 and C6 -/

namespace ByteBuffer

/-- C5. Bit round trip: for every width `w ≤ 32` and every value `v < 2 ^ w`, on
a freshly constructed buffer `writeBits(v, w)`, then `flushBits()`, then
`readBits(w)` raises nothing and returns `v`. -/
theorem writeBits_readBits_roundtrip (w v : Nat) (hw32 : w ≤ 32) (hv : v < 2 ^ w) :
    ∃ b1, readBits w (flushBits (writeBits v w ByteBuffer.new)) = .ok v b1 :=
  readBits_writeBits_general w v ByteBuffer.new hw32 hv rfl rfl rfl (by decide) rfl

/-- Witness for C5: the nine-bit value `0x155`. -/
theorem writeBits_readBits_roundtrip_witness :
    9 ≤ 32 ∧ 0x155 < 2 ^ 9 ∧
      ∃ b1, readBits 9 (flushBits (writeBits 0x155 9 ByteBuffer.new)) = .ok 0x155 b1 :=
  ⟨by decide, by decide, writeBits_readBits_roundtrip 9 0x155 (by decide) (by decide)⟩

/-- C6 (defect of the code on a null block). Bit order and zero padding. On a
buffer with no pending bits (bit cursor 8, accumulator 0), `wpos ≤ length` and
a block that is not null, for `n ≤ 32`,
`writeBits(v, n)` followed by `flushBits()` appends exactly `ceil(n / 8)` bytes;
read as a bit string most significant bit first, bit `j` of the appended bytes
is bit `n - 1 - j` of `v` for `j < n` and `0` for the padding positions;
afterwards the bit cursor is 8 and the accumulator 0. `writeBits(v, 8)` appends
the byte `v & 0xFF`, and `writeBits(v, 16)` appends the high byte of `v` before
the low byte. On the buffer `deAllocateLeftover()` leaves of a fresh one (no
pending bits, block null) the eighth `writeBit` of `writeBits(0xA5, 8)` calls
`append<uint8>`, whose `_newAllocation` returns at `!ptr`: the block is null and
empty still when `memcpy` stores through it, and the byte `0xA5` is not in the
block. -/
theorem writeBits_flushBits_bit_order (v n : Nat) (b : ByteBuffer) (hn : n ≤ 32)
    (hbit : b.bitpos = 8) (hcur : b.curbitval = 0) (hw : b.wpos ≤ b.length)
    (hnull : b.null = false) :
    ((∃ app, (flushBits (writeBits v n b)).written = b.written ++ app ∧
      app.length = (n + 7) / 8 ∧
      (∀ j, j < 8 * app.length →
        (app.getD (j / 8) 0).testBit (7 - j % 8) = (decide (j < n) && v.testBit (n - 1 - j))) ∧
      (∀ x ∈ app, x < 256)) ∧
    (flushBits (writeBits v n b)).bitpos = 8 ∧
    (flushBits (writeBits v n b)).curbitval = 0 ∧
    (flushBits (writeBits v 8 b)).written = b.written ++ [v &&& 0xFF] ∧
    (flushBits (writeBits v 16 b)).written =
      b.written ++ [(v >>> 8) &&& 0xFF, v &&& 0xFF]) ∧
    ((deAllocateLeftover ByteBuffer.new).bitpos = 8 ∧
      (deAllocateLeftover ByteBuffer.new).curbitval = 0 ∧
      (deAllocateLeftover ByteBuffer.new).null = true ∧
      (flushBits (writeBits 0xA5 8 (deAllocateLeftover ByteBuffer.new))).null = true ∧
      (flushBits (writeBits 0xA5 8 (deAllocateLeftover ByteBuffer.new))).length = 0 ∧
      (flushBits (writeBits 0xA5 8 (deAllocateLeftover ByteBuffer.new))).written = []) := by
  refine ⟨?_, by decide⟩
  have _ := hn
  obtain ⟨app, pad, hwr, hbits, hpad, h8, hc, _, _, hlt⟩ :=
    writeBits_flushBits_stream v n b hbit hcur hw hnull
  have hlen : 8 * app.length = n + pad := by
    have h := congrArg List.length hbits
    simpa [bitsOfBytes_length, msbBits_length] using h
  refine ⟨⟨app, hwr, by omega, ?_, hlt⟩, h8, hc, ?_, ?_⟩
  · intro j hj
    rw [← bitsOfBytes_getD app j hj, hbits]
    by_cases hjn : j < n
    · rw [List.getD_append _ _ _ _ (by rw [msbBits_length]; exact hjn), msbBits_getD _ _ _ hjn]
      simp [hjn]
    · rw [List.getD_append_right _ _ _ _ (by rw [msbBits_length]; omega)]
      simp only [hjn, List.getD_eq_getElem?_getD, List.getElem?_replicate, decide_False,
        Bool.false_and]
      split_ifs <;> rfl
  · obtain ⟨app8, pad8, hwr8, hbits8, hpad8, _, _, _, _, hlt8⟩ :=
      writeBits_flushBits_stream v 8 b hbit hcur hw hnull
    have hlen8 : 8 * app8.length = 8 + pad8 := by
      have h := congrArg List.length hbits8
      simpa [bitsOfBytes_length, msbBits_length] using h
    have hp0 : pad8 = 0 := by omega
    subst hp0
    match app8, hlen8, hbits8, hlt8, hwr8 with
    | [x], _, hbits8, hlt8, hwr8 =>
      simp only [bitsOfBytes, List.append_nil, List.replicate_zero] at hbits8
      rw [hwr8, byte_eq_of_msbBits x v (hlt8 x (by simp)) hbits8, mod_256_eq_and]
  · obtain ⟨app16, pad16, hwr16, hbits16, hpad16, _, _, _, _, hlt16⟩ :=
      writeBits_flushBits_stream v 16 b hbit hcur hw hnull
    have hlen16 : 8 * app16.length = 16 + pad16 := by
      have h := congrArg List.length hbits16
      simpa [bitsOfBytes_length, msbBits_length] using h
    have hp0 : pad16 = 0 := by omega
    subst hp0
    match app16, hlen16, hbits16, hlt16, hwr16 with
    | [x, y], _, hbits16, hlt16, hwr16 =>
      simp only [bitsOfBytes, List.append_nil, List.replicate_zero] at hbits16
      rw [msbBits_add v 8 8] at hbits16
      obtain ⟨hx, hy⟩ := List.append_inj hbits16 (by simp [msbBits_length])
      rw [hwr16, byte_eq_of_msbBits x _ (hlt16 x (by simp)) hx,
        byte_eq_of_msbBits y _ (hlt16 y (by simp)) hy, mod_256_eq_and, mod_256_eq_and]

/-- Witness for C6: five bits `10110` written after one byte. -/
theorem writeBits_flushBits_bit_order_witness :
    5 ≤ 32 ∧ (append .uint8 1 ByteBuffer.new).bitpos = 8 ∧
      (append .uint8 1 ByteBuffer.new).curbitval = 0 ∧
      (append .uint8 1 ByteBuffer.new).wpos ≤ (append .uint8 1 ByteBuffer.new).length ∧
      (append .uint8 1 ByteBuffer.new).null = false ∧
      (flushBits (writeBits 0x16 5 (append .uint8 1 ByteBuffer.new))).bitpos = 8 ∧
      (flushBits (writeBits 0x16 5 (append .uint8 1 ByteBuffer.new))).written = [1, 0xB0] :=
  ⟨by decide, by decide, by decide, by decide, by decide,
    (writeBits_flushBits_bit_order 0x16 5 (append .uint8 1 ByteBuffer.new)
      (by decide) (by decide) (by decide) (by decide) (by decide)).1.2.1, by decide⟩

end ByteBuffer

/-! ## Packed identifiers: C3 and C4 -/

namespace ByteBuffer

/-- C3 (defect of the code). `appendPackGUID` followed by `readPackGUID` does not
return the identifier: the packed array built in `appendPackGUID` is never
copied into the buffer, the bytes appended are those found at the address of
the pointer argument (`valueMem`), so the identifiers 1 and 2 leave the same
buffer behind whatever the memory holds, and at most one of them is read
back. -/
theorem readPackGUID_appendPackGUID_collision (valueMem : Nat → Nat) :
    readPackGUID (appendPackGUID valueMem 1 ByteBuffer.new) =
        readPackGUID (appendPackGUID valueMem 2 ByteBuffer.new) ∧
      ¬ ((∃ b1, readPackGUID (appendPackGUID valueMem 1 ByteBuffer.new) = .ok 1 b1) ∧
         (∃ b2, readPackGUID (appendPackGUID valueMem 2 ByteBuffer.new) = .ok 2 b2)) := by
  have h : appendPackGUID valueMem 1 ByteBuffer.new = appendPackGUID valueMem 2 ByteBuffer.new :=
    rfl
  refine ⟨by rw [h], ?_⟩
  rintro ⟨⟨b1, h1⟩, ⟨b2, h2⟩⟩
  rw [h, h2] at h1
  injection h1 with hv _
  exact absurd hv (by decide)

/-- C4 (defect of the code). `appendPackGUID` builds the mask byte and the
nonzero bytes in its local array (for `0x0102030405060708`: mask `0xFF`, then
`08 07 06 05 04 03 02 01`) and advances `wpos` by the packed size (1, 2, 2, 9
for `0`, `0x01`, `0xFF00000000000000`, `0x0102030405060708`), but the bytes it
appends are the bytes at the address of the pointer argument (`valueMem`), not
the array: for the identifiers 1 and 2 the written bytes are the same and
cannot be both `01 01` and `01 02`. -/
theorem appendPackGUID_appends_pointer_bytes (valueMem : Nat → Nat) :
    packGUIDLoop 8 0 0x0102030405060708 0 [] = (0xFF, [8, 7, 6, 5, 4, 3, 2, 1]) ∧
      (appendPackGUID valueMem 0 ByteBuffer.new).wpos = 1 ∧
      (appendPackGUID valueMem 0x01 ByteBuffer.new).wpos = 2 ∧
      (appendPackGUID valueMem 0xFF00000000000000 ByteBuffer.new).wpos = 2 ∧
      (appendPackGUID valueMem 0x0102030405060708 ByteBuffer.new).wpos = 9 ∧
      (appendPackGUID valueMem 0x0102030405060708 ByteBuffer.new).written =
        (List.range 9).map valueMem ∧
      (appendPackGUID valueMem 1 ByteBuffer.new).written = [valueMem 0, valueMem 1] ∧
      (appendPackGUID valueMem 2 ByteBuffer.new).written = [valueMem 0, valueMem 1] ∧
      ¬ ((appendPackGUID valueMem 1 ByteBuffer.new).written = [1, 1] ∧
         (appendPackGUID valueMem 2 ByteBuffer.new).written = [1, 2]) := by
  refine ⟨by decide, rfl, rfl, rfl, rfl, rfl, rfl, rfl, ?_⟩
  have h1 : (appendPackGUID valueMem 1 ByteBuffer.new).written = [valueMem 0, valueMem 1] := rfl
  have h2 : (appendPackGUID valueMem 2 ByteBuffer.new).written = [valueMem 0, valueMem 1] := rfl
  rw [h1, h2]
  rintro ⟨ha, hb⟩
  simp only [List.cons.injEq, and_true] at ha hb
  omega

end ByteBuffer

/-! ## Underrun: C7 and C8 -/

namespace ByteBuffer

theorem read_uint8_of_lt (b : ByteBuffer) (h : b.rpos + 1 ≤ b.length) :
    read .uint8 b =
      .ok (ofWire .uint8 (memRead b.data b.rpos 1)) { b with rpos := b.rpos + 1 } := by
  have hsub : sizeSub b.length b.rpos = b.length - b.rpos := by
    simp only [sizeSub]; rw [if_pos (by omega)]
  simp only [read, hsub, IntType.sizeof]
  rw [if_neg (by omega)]

/-- C8, counterexample. The buffer holds the mask `0x03` and one payload byte:
`readPackGUID` raises at the second payload byte with `rpos = 2`, while `rpos`
was 0 before the call. -/
theorem readPackGUID_raised_advanced :
    (deAllocateLeftover (append .uint8 5 (append .uint8 3 ByteBuffer.new))).rpos = 0 ∧
      readPackGUID (deAllocateLeftover (append .uint8 5 (append .uint8 3 ByteBuffer.new))) =
        .raised ⟨false, 2, 1, 2⟩
          { rpos := 2, wpos := 2, bitpos := 8, curbitval := 0, data := [3, 5] } := by
  decide

theorem readPackGUIDLoop_raised (guidmark n i guid : Nat) (b : ByteBuffer)
    (e : ByteBufferException) (b1 : ByteBuffer) (hle : b.rpos ≤ b.length)
    (h : readPackGUIDLoop guidmark n i guid b = .raised e b1) :
    b.rpos ≤ b1.rpos ∧ b1.rpos = b.length ∧ b1.data = b.data ∧ b1.wpos = b.wpos ∧
      b1.bitpos = b.bitpos ∧ b1.curbitval = b.curbitval := by
  induction n generalizing i guid b with
  | zero => simp [readPackGUIDLoop] at h
  | succ n ih =>
    simp only [readPackGUIDLoop] at h
    split_ifs at h with h1 h2
    · injection h with _ hb
      subst hb
      exact ⟨le_refl _, by omega, rfl, rfl, rfl, rfl⟩
    · rw [read_uint8_of_lt b (by omega)] at h
      have := ih _ _ { b with rpos := b.rpos + 1 } (by simp only [length] at h2 ⊢; omega) h
      simp only [length] at this ⊢
      exact ⟨by omega, this.2.1, this.2.2.1, this.2.2.2.1, this.2.2.2.2.1, this.2.2.2.2.2⟩
    · exact ih _ _ b hle h

/-- C8, amended. When `readPackGUID` raises at the mask byte (no byte left before
the end of storage) the state of the buffer is unchanged; when it raises at a
payload byte announced by the mask, the read cursor has advanced past the mask
byte and the payload bytes already read, to the end of storage, and nothing
else has changed. -/
theorem readPackGUID_raised_rpos (b : ByteBuffer) (e : ByteBufferException) (b1 : ByteBuffer)
    (h : readPackGUID b = .raised e b1) :
    (b.length < b.rpos + 1 ∧ b1 = b) ∨
      (b.rpos + 1 ≤ b.length ∧ b.rpos < b1.rpos ∧ b1.rpos = b.length ∧ b1.data = b.data ∧
        b1.wpos = b.wpos ∧ b1.bitpos = b.bitpos ∧ b1.curbitval = b.curbitval) := by
  simp only [readPackGUID] at h
  split_ifs at h with h1
  · injection h with _ hb
    exact Or.inl ⟨by omega, hb.symm⟩
  · rw [read_uint8_of_lt b (by omega)] at h
    have := readPackGUIDLoop_raised _ _ _ _ { b with rpos := b.rpos + 1 } e b1
      (by simp only [length] at h1 ⊢; omega) h
    simp only [length] at this ⊢
    exact Or.inr ⟨by simp only [length] at h1; omega, by omega, this.2.1, this.2.2.1,
      this.2.2.2.1, this.2.2.2.2.1, this.2.2.2.2.2⟩

/-- Witness for the amended C8: the failing call of the counterexample. -/
theorem readPackGUID_raised_rpos_witness :
    (0 : Nat) < 2 ∧
      ({ rpos := 2, wpos := 2, bitpos := 8, curbitval := 0, data := [3, 5] } : ByteBuffer).rpos =
        (deAllocateLeftover (append .uint8 5 (append .uint8 3 ByteBuffer.new))).length := by
  have h := readPackGUID_raised_rpos
    (deAllocateLeftover (append .uint8 5 (append .uint8 3 ByteBuffer.new)))
    ⟨false, 2, 1, 2⟩ { rpos := 2, wpos := 2, bitpos := 8, curbitval := 0, data := [3, 5] }
    (by decide)
  rcases h with ⟨h1, _⟩ | ⟨_, h2, h3, _⟩
  · exact absurd h1 (by decide)
  · exact ⟨h2, h3⟩

end ByteBuffer

/-! ## Concatenation and growth: C9 and C10 -/

theorem realloc_self_take (d : List Nat) (n : Nat) (h : n ≤ d.length) :
    realloc d n = d.take n := by
  simp [realloc, Nat.sub_eq_zero_of_le h]

namespace ByteBuffer

theorem appendBuffer_fst (buffer b : ByteBuffer) (h : buffer.wpos ≤ buffer.length) :
    (appendBuffer buffer b).1 =
      { buffer with data := buffer.written, null := reallocNull buffer.null buffer.wpos } := by
  simp only [appendBuffer, deAllocateLeftover, written]
  rw [realloc_self_take _ _ h]

theorem appendBuffer_null (buffer b : ByteBuffer) :
    (appendBuffer buffer b).2.null = b.null := by
  cases hn : b.null <;> simp only [appendBuffer, _newAllocation, hn] <;> split_ifs <;>
    first | exact hn | simp_all

theorem appendBuffer_snd_of_lt (buffer b : ByteBuffer) (h : buffer.wpos ≤ buffer.length)
    (hg : b.length < b.wpos + buffer.wpos) (hnull : b.null = false) :
    (appendBuffer buffer b).2 =
      { b with data := memcpy (realloc b.data (b.wpos + buffer.wpos + 10)) b.wpos buffer.written,
               wpos := b.wpos + buffer.wpos } := by
  simp only [length] at h hg
  have hsrc : memRead (realloc buffer.data buffer.wpos) 0 buffer.wpos = buffer.written := by
    rw [realloc_self_take _ _ h]
    simp [memRead, written]
  have hg2 : ¬ (b.wpos + buffer.wpos < b.data.length) := by omega
  simp only [appendBuffer, deAllocateLeftover, length, realloc_length, hsrc, _newAllocation,
    if_pos hg, hg2, hnull, Bool.false_eq_true, if_false, or_self]

theorem appendBuffer_snd_of_not_lt (buffer b : ByteBuffer) (h : buffer.wpos ≤ buffer.length)
    (hg : ¬ b.length < b.wpos + buffer.wpos) :
    (appendBuffer buffer b).2 =
      { b with data := memcpy b.data b.wpos buffer.written, wpos := b.wpos + buffer.wpos } := by
  simp only [length] at h hg
  have hsrc : memRead (realloc buffer.data buffer.wpos) 0 buffer.wpos = buffer.written := by
    rw [realloc_self_take _ _ h]
    simp [memRead, written]
  simp only [appendBuffer, deAllocateLeftover, length, realloc_length, hsrc, if_neg hg]

theorem appendBuffer_snd (buffer b : ByteBuffer) (h : buffer.wpos ≤ buffer.length)
    (hw : b.wpos ≤ b.length) (hnull : b.null = false) :
    (appendBuffer buffer b).2.written = b.written ++ buffer.written ∧
      (appendBuffer buffer b).2.wpos = b.wpos + buffer.wpos ∧
      (appendBuffer buffer b).2.wpos ≤ (appendBuffer buffer b).2.length ∧
      (appendBuffer buffer b).2.rpos = b.rpos ∧
      (appendBuffer buffer b).2.bitpos = b.bitpos ∧
      (appendBuffer buffer b).2.curbitval = b.curbitval := by
  have hsl : buffer.written.length = buffer.wpos := by
    simp only [written, List.length_take, length] at h ⊢; omega
  by_cases hg : b.length < b.wpos + buffer.wpos
  · rw [appendBuffer_snd_of_lt buffer b h hg hnull]
    simp only [length] at hw hg
    refine ⟨?_, rfl, ?_, rfl, rfl, rfl⟩
    · have h1 := take_memcpy (realloc b.data (b.wpos + buffer.wpos + 10)) b.wpos buffer.written
        (by rw [realloc_length]; omega)
      rw [hsl, realloc_take _ _ _ hw (by omega)] at h1
      exact h1
    · simp only [length, memcpy_length, realloc_length]; omega
  · rw [appendBuffer_snd_of_not_lt buffer b h hg]
    simp only [length] at hw hg
    refine ⟨?_, rfl, ?_, rfl, rfl, rfl⟩
    · have h1 := take_memcpy b.data b.wpos buffer.written (by omega)
      rw [hsl] at h1
      exact h1
    · simp only [length, memcpy_length]; omega

theorem readSeq_of_le (n : Nat) (b : ByteBuffer) (h : b.rpos + n ≤ b.length) :
    readSeq n b =
      .ok ((memRead b.data b.rpos n).map Int.ofNat) { b with rpos := b.rpos + n } := by
  induction n generalizing b with
  | zero => simp [readSeq, memRead]
  | succ n ih =>
    simp only [length] at h
    have hlt : b.rpos < b.data.length := by omega
    have hd : b.data.drop b.rpos = b.data[b.rpos] :: b.data.drop (b.rpos + 1) :=
      List.drop_eq_getElem_cons hlt
    have h1 : memRead b.data b.rpos 1 = [b.data[b.rpos]] := by
      unfold memRead; rw [hd]; rfl
    have h2 : memRead b.data b.rpos (n + 1) =
        b.data[b.rpos] :: memRead b.data (b.rpos + 1) n := by
      unfold memRead; rw [hd]; rfl
    have h3 := ih { b with rpos := b.rpos + 1 } (by simp only [length]; omega)
    simp only [readSeq]
    rw [read_uint8_of_lt b (by simp only [length]; omega), h1, ofWire_uint8_singleton]
    simp only [h3, h2, List.map_cons, Nat.add_assoc, Nat.add_comm 1 n]
    rfl

/-- C9 (defect of the code on a null block). Concatenation order. For a destination `D` whose read cursor equals its
write cursor and whose block is not null, and sources `A`, `B` (all with
`wpos ≤ length`), after `D.append(A)` then `D.append(B)` the sources are
trimmed (`length = wpos`, write cursor and written bytes kept), the write
cursor of `D` has grown by `A.wpos + B.wpos`, the bytes of `D` written earlier
are unchanged, and reading `D` byte by byte from its read cursor returns the
written bytes of `A` followed by those of `B` without raising. With the
destination `deAllocateLeftover()` leaves of a fresh buffer (read cursor equal
to the write cursor, block null) and a source holding `01 02`, `D.append(A)`
calls `_newAllocation`, which returns at `!ptr`: the block of `D` is null and
empty still when `memcpy` stores through it, and the first sequential read
raises. -/
theorem appendBuffer_concat (D A B : ByteBuffer) (hr : D.rpos = D.wpos)
    (hD : D.wpos ≤ D.length) (hA : A.wpos ≤ A.length) (hB : B.wpos ≤ B.length)
    (hnull : D.null = false) :
    ((appendBuffer A D).1.length = (appendBuffer A D).1.wpos ∧
      (appendBuffer A D).1.written = A.written ∧
      (appendBuffer B (appendBuffer A D).2).1.length =
        (appendBuffer B (appendBuffer A D).2).1.wpos ∧
      (appendBuffer B (appendBuffer A D).2).1.written = B.written ∧
      (appendBuffer B (appendBuffer A D).2).2.wpos = D.wpos + (A.wpos + B.wpos) ∧
      (appendBuffer B (appendBuffer A D).2).2.written = D.written ++ (A.written ++ B.written) ∧
      readSeq (A.wpos + B.wpos) (appendBuffer B (appendBuffer A D).2).2 =
        .ok ((A.written ++ B.written).map Int.ofNat)
          { (appendBuffer B (appendBuffer A D).2).2 with
              rpos := (appendBuffer B (appendBuffer A D).2).2.wpos }) ∧
    ((deAllocateLeftover ByteBuffer.new).rpos = (deAllocateLeftover ByteBuffer.new).wpos ∧
      (deAllocateLeftover ByteBuffer.new).bitpos = 8 ∧
      (deAllocateLeftover ByteBuffer.new).null = true ∧
      (appendBuffer (append .uint16 0x0201 ByteBuffer.new)
        (deAllocateLeftover ByteBuffer.new)).2.null = true ∧
      (appendBuffer (append .uint16 0x0201 ByteBuffer.new)
        (deAllocateLeftover ByteBuffer.new)).2.length = 0 ∧
      ∃ e b1, read .uint8 (appendBuffer (append .uint16 0x0201 ByteBuffer.new)
        (deAllocateLeftover ByteBuffer.new)).2 = .raised e b1) := by
  refine ⟨?_, by decide, by decide, by decide, by decide, by decide, _, _, rfl⟩
  obtain ⟨hw1, hp1, hl1, hr1, _, _⟩ := appendBuffer_snd A D hA hD hnull
  obtain ⟨hw2, hp2, hl2, hr2, _, _⟩ := appendBuffer_snd B (appendBuffer A D).2 hB hl1
    (by rw [appendBuffer_null]; exact hnull)
  have hAl : A.written.length = A.wpos := by
    simp only [written, List.length_take, length] at hA ⊢; omega
  have hBl : B.written.length = B.wpos := by
    simp only [written, List.length_take, length] at hB ⊢; omega
  have hDl : D.written.length = D.wpos := by
    simp only [written, List.length_take, length] at hD ⊢; omega
  rw [hw1, List.append_assoc] at hw2
  rw [hp1, Nat.add_assoc] at hp2
  rw [hr1, hr] at hr2
  refine ⟨?_, ?_, ?_, ?_, hp2, hw2, ?_⟩
  · rw [appendBuffer_fst A D hA]; simp only [length]; exact hAl
  · rw [appendBuffer_fst A D hA]; simp [written]
  · rw [appendBuffer_fst B _ hB]; simp only [length]; exact hBl
  · rw [appendBuffer_fst B _ hB]; simp [written]
  · rw [readSeq_of_le _ _ (by rw [hr2]; omega), hr2, hp2]
    have hmem : memRead (appendBuffer B (appendBuffer A D).2).2.data D.wpos (A.wpos + B.wpos) =
        A.written ++ B.written := by
      have h1 := List.take_append_drop (appendBuffer B (appendBuffer A D).2).2.wpos
        (appendBuffer B (appendBuffer A D).2).2.data
      simp only [written] at hw2
      rw [hw2] at h1
      simp only [written] at hAl hBl hDl
      simp only [memRead, written]
      rw [← h1, List.append_assoc, List.drop_append_of_le_length (by omega),
        List.drop_of_length_le (by omega), List.nil_append,
        List.take_append_of_le_length (by simp only [List.length_append]; omega),
        List.take_of_length_le (by simp only [List.length_append]; omega)]
    rw [hmem]
    simp [hp2]

/-- Witness for C9: `A` holds `01 02`, `B` holds `03`, `D` is fresh. -/
theorem appendBuffer_concat_witness :
    readSeq 3 (appendBuffer (append .uint8 3 ByteBuffer.new)
        (appendBuffer (append .uint16 0x0201 ByteBuffer.new) ByteBuffer.new).2).2 =
      .ok [1, 2, 3]
        { (appendBuffer (append .uint8 3 ByteBuffer.new)
            (appendBuffer (append .uint16 0x0201 ByteBuffer.new) ByteBuffer.new).2).2 with
          rpos := 3 } :=
  (appendBuffer_concat ByteBuffer.new (append .uint16 0x0201 ByteBuffer.new)
    (append .uint8 3 ByteBuffer.new) (by decide) (by decide) (by decide) (by decide)
    (by decide)).1.2.2.2.2.2.2

theorem appendEach_written (bs : List Nat) (b : ByteBuffer) (hbs : ∀ x ∈ bs, x < 256)
    (hbit : b.bitpos = 8) (hw : b.wpos ≤ b.length) (hnull : b.null = false) :
    (appendEach bs b).written = b.written ++ bs ∧
      (appendEach bs b).wpos = b.wpos + bs.length := by
  induction bs generalizing b with
  | nil => simp [appendEach]
  | cons x xs ih =>
    have hx : x < 256 := hbs x (by simp)
    have hstep : append .uint8 (x : Int) b = storeBytes [x] b := by
      rw [append_uint8_of_bitpos_eight _ b hbit, toWire_uint8, Nat.mod_eq_of_lt hx]
    obtain ⟨h1, h2⟩ := ih (append .uint8 (x : Int) b) (fun y hy => hbs y (by simp [hy]))
      (by rw [hstep, storeBytes_bitpos, hbit])
      (by rw [hstep]; exact storeBytes_wpos_le _ _ hw hnull)
      (by rw [hstep, storeBytes_null]; exact hnull)
    simp only [appendEach] at h1 h2 ⊢
    rw [List.foldl_cons, h1, h2, hstep, storeBytes_written _ _ hw hnull, storeBytes_wpos]
    simp [Nat.add_assoc, Nat.add_comm 1]

/-- C10 (defect of the code on a null block). Growth preserves content. On a buffer with no pending bits,
`wpos ≤ length` and a block that is not null, appending the bytes `bs` one at a
time with `append<uint8>` and appending them at once with the raw
`append(bs, N)` give the same write cursor and the same written bytes: the
bytes written before followed by `bs`. On the buffer `deAllocateLeftover()`
leaves of a fresh one (no pending bits, `wpos = length = 0`, block null) both
paths call `_newAllocation`, which returns at `!ptr`: the block is null and
empty still when `memcpy` stores through it, and the bytes `01 02` are not in
the block. -/
theorem append_bytewise_eq_appendBytes (bs : List Nat) (b : ByteBuffer)
    (hbs : ∀ x ∈ bs, x < 256) (hbit : b.bitpos = 8) (hw : b.wpos ≤ b.length)
    (hnull : b.null = false) :
    ((appendEach bs b).wpos = (appendBytes bs b).wpos ∧
      (appendEach bs b).written = (appendBytes bs b).written ∧
      (appendBytes bs b).written = b.written ++ bs ∧
      (appendBytes bs b).wpos = b.wpos + bs.length) ∧
    ((deAllocateLeftover ByteBuffer.new).bitpos = 8 ∧
      (deAllocateLeftover ByteBuffer.new).wpos = 0 ∧
      (deAllocateLeftover ByteBuffer.new).length = 0 ∧
      (deAllocateLeftover ByteBuffer.new).null = true ∧
      (appendBytes [1, 2] (deAllocateLeftover ByteBuffer.new)).null = true ∧
      (appendBytes [1, 2] (deAllocateLeftover ByteBuffer.new)).length = 0 ∧
      (appendBytes [1, 2] (deAllocateLeftover ByteBuffer.new)).written = [] ∧
      (appendEach [1, 2] (deAllocateLeftover ByteBuffer.new)).null = true ∧
      (appendEach [1, 2] (deAllocateLeftover ByteBuffer.new)).length = 0 ∧
      (appendEach [1, 2] (deAllocateLeftover ByteBuffer.new)).written = []) := by
  refine ⟨?_, by decide⟩
  obtain ⟨h1, h2⟩ := appendEach_written bs b hbs hbit hw hnull
  have h3 : (appendBytes bs b).written = b.written ++ bs := storeBytes_written bs b hw hnull
  have h4 : (appendBytes bs b).wpos = b.wpos + bs.length := storeBytes_wpos bs b
  exact ⟨by rw [h2, h4], by rw [h1, h3], h3, h4⟩

/-- Witness for C10: twelve bytes appended to a fresh buffer of capacity 10, so
that both paths reallocate. -/
theorem append_bytewise_eq_appendBytes_witness :
    (appendEach [1, 2, 3, 4, 5, 6, 7, 8, 9, 10, 11, 12] ByteBuffer.new).written =
        (appendBytes [1, 2, 3, 4, 5, 6, 7, 8, 9, 10, 11, 12] ByteBuffer.new).written ∧
      (appendEach [1, 2, 3, 4, 5, 6, 7, 8, 9, 10, 11, 12] ByteBuffer.new).length = 21 ∧
      (appendBytes [1, 2, 3, 4, 5, 6, 7, 8, 9, 10, 11, 12] ByteBuffer.new).length = 32 :=
  ⟨(append_bytewise_eq_appendBytes [1, 2, 3, 4, 5, 6, 7, 8, 9, 10, 11, 12] ByteBuffer.new
    (by decide) (by decide) (by decide) (by decide)).1.2.1, by decide, by decide⟩

end ByteBuffer

/-! ## Copy, index and patch: C11, C12 and C17 -/

namespace ByteBuffer

theorem copy_data (buffer : ByteBuffer) : (copy buffer).data = buffer.data := by
  simp only [copy, _newAllocation, if_true, length, malloc, memRead, memcpy,
    List.length_replicate, List.drop_zero, List.take_zero, List.nil_append, Nat.zero_add]
  rw [List.take_of_length_le (le_refl _),
    List.take_append_of_le_length (le_refl _), List.take_of_length_le (le_refl _)]

/-- C11 (defect of the code). The copy-constructed buffer has the length, the
storage bytes, the bit cursor, the accumulator and the read position of the
source, and a copied packet keeps the tag; but its write position is the READ
position of the source: the member initialiser is `wpos(buffer.rpos)`. After
`append<uint8>(7)` on a fresh buffer the source has `wpos = 1` and the copy
`wpos = 0`. -/
theorem copy_write_position (b : ByteBuffer) (p : WorldPacket) :
    (copy b).length = b.length ∧ (copy b).data = b.data ∧ (copy b).bitpos = b.bitpos ∧
      (copy b).curbitval = b.curbitval ∧ (copy b).rpos = b.rpos ∧ (copy b).wpos = b.rpos ∧
      p.copy.m_opcode = p.m_opcode ∧ p.copy.toByteBuffer = copy p.toByteBuffer ∧
      (append .uint8 7 ByteBuffer.new).wpos = 1 ∧
      (copy (append .uint8 7 ByteBuffer.new)).wpos = 0 := by
  refine ⟨by rw [length, copy_data, length], copy_data b, rfl, rfl, rfl, rfl, rfl, rfl,
    by decide, by decide⟩

/-- C12 (defect of the code). The guard of `operator[]` is `pos > length`, so
the access at `pos = length`, one byte past the end of storage, is not
rejected, whereas the positional `read<uint8>(pos)` raises there. For
`pos > length` the operator raises, and for `pos < length` it returns the byte
at `pos`. -/
theorem operatorIndex_at_length (b : ByteBuffer) :
    (∀ e, operatorIndex b.length b ≠ .error e) ∧
      readAt .uint8 b.length b = .error ⟨false, b.length, 1, b.length⟩ ∧
      (∀ pos, b.length < pos → operatorIndex pos b = .error ⟨false, pos, 1, b.length⟩) ∧
      (∀ pos, pos < b.length → operatorIndex pos b = .ok (b.data.getD pos 0)) ∧
      (∀ e, operatorIndex 10 ByteBuffer.new ≠ .error e) := by
  refine ⟨?_, ?_, ?_, ?_, ?_⟩
  rotate_right
  · intro e h
    simp [operatorIndex, ByteBuffer.new, _newAllocation, malloc, length] at h
  · intro e h
    simp [operatorIndex] at h
  · simp [readAt, IntType.sizeof]
  · intro pos hpos
    simp [operatorIndex, hpos]
  · intro pos hpos
    have hd : b.data.drop pos = b.data[pos] :: b.data.drop (pos + 1) :=
      List.drop_eq_getElem_cons hpos
    have h1 : memRead b.data pos 1 = [b.data[pos]] := by
      unfold memRead; rw [hd]; rfl
    simp only [operatorIndex, if_neg (Nat.not_lt.2 (Nat.le_of_lt hpos)), h1,
      ofWire_uint8_singleton, Int.toNat_ofNat]
    rw [List.getD_eq_getElem _ _ hpos]

/-- C17. Patch frame and round trip: for every integer type `T`, every value `v`
of `T` and every offset with `pos + sizeof(T) ≤ length`, `put<T>(pos, v)`
leaves `rpos`, `wpos`, `length`, the bit cursor, the accumulator and the
storage before `pos` and from `pos + sizeof(T)` on unchanged, and the
positional `read<T>(pos)` then returns `v`. -/
theorem put_frame_roundtrip (T : IntType) (v : Int) (pos : Nat) (b : ByteBuffer)
    (hv : T.InRange v) (h : pos + T.sizeof ≤ b.length) :
    (put T pos v b).rpos = b.rpos ∧ (put T pos v b).wpos = b.wpos ∧
      (put T pos v b).length = b.length ∧ (put T pos v b).bitpos = b.bitpos ∧
      (put T pos v b).curbitval = b.curbitval ∧
      (put T pos v b).data.take pos = b.data.take pos ∧
      (put T pos v b).data.drop (pos + T.sizeof) = b.data.drop (pos + T.sizeof) ∧
      readAt T pos (put T pos v b) = .ok v := by
  simp only [length] at h
  have hl : pos + (toWire T v).length ≤ b.data.length := by rw [toWire_length]; exact h
  have hm := memcpy_of_le b.data pos (toWire T v) hl
  have htl : (b.data.take pos).length = pos := by simp; omega
  refine ⟨rfl, rfl, ?_, rfl, rfl, ?_, ?_, ?_⟩
  · simp only [put, length, memcpy_length]
  · simp only [put]
    rw [hm, List.append_assoc, List.take_append_of_le_length (by omega),
      List.take_of_length_le (by omega)]
  · simp only [put]
    rw [hm, toWire_length]
    have hlen : (b.data.take pos ++ toWire T v).length = pos + T.sizeof := by
      rw [List.length_append, htl, toWire_length]
    rw [← hlen, List.drop_left]
  · have hr := memRead_memcpy b.data pos (toWire T v) hl
    rw [toWire_length] at hr
    simp only [readAt, put, length, memcpy_length]
    rw [if_neg (by omega), hr, ofWire_toWire T v hv]

/-- Witness for C17: the length field of a packet patched after the payload. -/
theorem put_frame_roundtrip_witness :
    IntType.uint16.InRange 0x0304 ∧
      1 + IntType.uint16.sizeof ≤ (append .uint32 0 ByteBuffer.new).length ∧
      (put .uint16 1 0x0304 (append .uint32 0 ByteBuffer.new)).data =
        [0, 4, 3, 0, 0, 0, 0, 0, 0, 0] ∧
      readAt .uint16 1 (put .uint16 1 0x0304 (append .uint32 0 ByteBuffer.new)) = .ok 0x0304 :=
  ⟨by decide, by decide, by decide,
    (put_frame_roundtrip .uint16 0x0304 1 (append .uint32 0 ByteBuffer.new)
      (by decide) (by decide)).2.2.2.2.2.2.2⟩

end ByteBuffer

/-! ## Flush before append and growth: C13 and C20 -/

namespace ByteBuffer

theorem appendBuffer_bitstate (buffer b : ByteBuffer) :
    (appendBuffer buffer b).2.bitpos = b.bitpos ∧
      (appendBuffer buffer b).2.curbitval = b.curbitval ∧
      (appendBuffer buffer b).2.rpos = b.rpos := by
  simp only [appendBuffer, _newAllocation]
  split_ifs <;> exact ⟨rfl, rfl, rfl⟩

theorem appendString_bitstate (value : List Nat) (b : ByteBuffer) :
    (appendString value b).bitpos = b.bitpos ∧
      (appendString value b).curbitval = b.curbitval ∧
      (appendString value b).rpos = b.rpos := by
  simp only [appendString, _newAllocation]
  split_ifs <;> exact ⟨rfl, rfl, rfl⟩

/-- C13 (defect of the code). Only the typed `append<T>` calls `flushBits()`.
The raw `append(bytes, len)`, `append(ByteBuffer&)` and the string
`operator<<` leave the bit cursor and the accumulator as they are in every
state, and append their data without the pending byte. With the bit `1`
pending on a fresh buffer (bit cursor 7, accumulator `0x80`), the typed append
of `0xAA` writes `80 AA` and resets the bit state, whereas the three other
paths write their data alone and the bit stays pending. -/
theorem append_paths_without_flush (src value : List Nat) (buffer b : ByteBuffer) :
    ((appendBytes src b).bitpos = b.bitpos ∧ (appendBytes src b).curbitval = b.curbitval) ∧
      ((appendBuffer buffer b).2.bitpos = b.bitpos ∧
        (appendBuffer buffer b).2.curbitval = b.curbitval) ∧
      ((appendString value b).bitpos = b.bitpos ∧
        (appendString value b).curbitval = b.curbitval) ∧
      ((writeBit 1 ByteBuffer.new).2.bitpos = 7 ∧
        (writeBit 1 ByteBuffer.new).2.curbitval = 0x80) ∧
      ((append .uint8 0xAA (writeBit 1 ByteBuffer.new).2).written = [0x80, 0xAA] ∧
        (append .uint8 0xAA (writeBit 1 ByteBuffer.new).2).bitpos = 8 ∧
        (append .uint8 0xAA (writeBit 1 ByteBuffer.new).2).curbitval = 0) ∧
      ((appendBytes [0xAA] (writeBit 1 ByteBuffer.new).2).written = [0xAA] ∧
        (appendBytes [0xAA] (writeBit 1 ByteBuffer.new).2).bitpos = 7) ∧
      ((appendBuffer (append .uint8 0xAA ByteBuffer.new)
          (writeBit 1 ByteBuffer.new).2).2.written = [0xAA] ∧
        (appendBuffer (append .uint8 0xAA ByteBuffer.new)
          (writeBit 1 ByteBuffer.new).2).2.bitpos = 7) ∧
      ((appendString [0x61] (writeBit 1 ByteBuffer.new).2).written = [0x61, 0] ∧
        (appendString [0x61] (writeBit 1 ByteBuffer.new).2).bitpos = 7) := by
  refine ⟨⟨storeBytes_bitpos src b, storeBytes_curbitval src b⟩,
    ⟨(appendBuffer_bitstate buffer b).1, (appendBuffer_bitstate buffer b).2.1⟩,
    ⟨(appendString_bitstate value b).1, (appendString_bitstate value b).2.1⟩,
    by decide, by decide, by decide, by decide, by decide⟩

theorem appendBuffer_length (buffer b : ByteBuffer) (hnull : b.null = false) :
    (appendBuffer buffer b).2.length =
      if b.wpos + buffer.wpos ≤ b.length then b.length else b.wpos + buffer.wpos + 10 := by
  simp only [appendBuffer, deAllocateLeftover, length, realloc_length, _newAllocation]
  by_cases hg : b.data.length < b.wpos + buffer.wpos
  · have hg2 : ¬ (b.wpos + buffer.wpos < b.data.length) := by omega
    simp only [if_pos hg, hnull, false_or, if_neg hg2, Bool.false_eq_true, if_false,
      memcpy_length, realloc_length]
    rw [if_neg (by omega)]
  · simp only [if_neg hg, memcpy_length]
    rw [if_pos (by omega)]

theorem appendString_length (value : List Nat) (b : ByteBuffer) (hnull : b.null = false) :
    (appendString value b).length =
      if b.wpos + (value.length + 1) ≤ b.length then b.length
      else b.wpos + (value.length + 1) + 10 := by
  simp only [appendString, length, _newAllocation]
  by_cases hg : b.wpos + (value.length + 1) > b.data.length
  · have hg2 : ¬ (b.wpos + (value.length + 1) < b.data.length) := by omega
    simp only [if_pos hg, hnull, false_or, if_neg hg2, Bool.false_eq_true, if_false,
      memcpy_length, realloc_length]
    rw [if_neg (by omega)]
  · simp only [if_neg hg, memcpy_length]
    rw [if_pos (by omega)]

theorem appendSelf_length (b : ByteBuffer) :
    (appendSelf b).length = if b.wpos = 0 then 0 else 2 * b.wpos + 10 := by
  by_cases h0 : b.wpos = 0
  · simp [appendSelf, deAllocateLeftover, length, realloc_length, _newAllocation, h0,
      memcpy_length]
  · have hg : b.wpos < b.wpos + b.wpos := by omega
    have hg2 : ¬ (b.wpos + b.wpos < b.wpos) := by omega
    have hne : (b.wpos == 0) = false := by simpa using h0
    simp only [appendSelf, deAllocateLeftover, length, realloc_length, _newAllocation,
      reallocNull, hne, Bool.and_false, if_pos hg, Bool.false_eq_true, if_false, false_or,
      if_neg hg2, memcpy_length, if_neg h0]
    omega

/-- C20, counterexample. A fresh buffer has `wpos = 0` and capacity 10; the raw
append of 12 bytes does not fit, and the capacity afterwards is 32, that is
`length + n + 10`, not `wpos + n + 10 = 22`. The typed append behaves alike:
after one `uint64` the second one leaves capacity 28, not 26. And a buffer of
capacity 30 holding one byte, appended to itself, has room for the byte
(`wpos + n = 2 ≤ 30`) but is trimmed first: the capacity falls to 12. -/
theorem appendBytes_growth_from_length :
    ByteBuffer.new.wpos = 0 ∧ ByteBuffer.new.length = 10 ∧
      (appendBytes [1, 2, 3, 4, 5, 6, 7, 8, 9, 10, 11, 12] ByteBuffer.new).length = 32 ∧
      (append .uint64 1 ByteBuffer.new).wpos = 8 ∧
      (append .uint64 1 ByteBuffer.new).length = 10 ∧
      (append .uint64 2 (append .uint64 1 ByteBuffer.new)).length = 28 ∧
      (append .uint8 1 (ByteBuffer.reserved 30)).wpos = 1 ∧
      (append .uint8 1 (ByteBuffer.reserved 30)).length = 30 ∧
      (append .uint8 1 (ByteBuffer.reserved 30)).bitpos = 8 ∧
      (appendSelf (append .uint8 1 (ByteBuffer.reserved 30))).wpos = 2 ∧
      (appendSelf (append .uint8 1 (ByteBuffer.reserved 30))).length = 12 := by
  decide

/-- C20, amended. On a buffer with no pending bits whose block is not null, each
append path that writes `n` bytes at `wpos` leaves the capacity unchanged when
`wpos + n ≤ length`; otherwise the typed and the raw append grow it to
`length + n + 10`, and `append(ByteBuffer&)` with an argument other than the
receiver and the string `operator<<` to `wpos + n + 10`. On these paths the
capacity never decreases. `append(ByteBuffer&)` with the receiver itself as the
argument trims the receiver first: the capacity afterwards is `2 * wpos + 10`,
or 0 when `wpos = 0`. -/
theorem append_growth (T : IntType) (v : Int) (src value : List Nat) (buffer b : ByteBuffer)
    (hbit : b.bitpos = 8) (hnull : b.null = false) :
    ((append T v b).length =
        (if b.wpos + T.sizeof ≤ b.length then b.length else b.length + T.sizeof + 10) ∧
      b.length ≤ (append T v b).length) ∧
    ((appendBytes src b).length =
        (if b.wpos + src.length ≤ b.length then b.length else b.length + src.length + 10) ∧
      b.length ≤ (appendBytes src b).length) ∧
    ((appendBuffer buffer b).2.length =
        (if b.wpos + buffer.wpos ≤ b.length then b.length else b.wpos + buffer.wpos + 10) ∧
      b.length ≤ (appendBuffer buffer b).2.length) ∧
    ((appendString value b).length =
        (if b.wpos + (value.length + 1) ≤ b.length then b.length
          else b.wpos + (value.length + 1) + 10) ∧
      b.length ≤ (appendString value b).length) ∧
    (appendSelf b).length = (if b.wpos = 0 then 0 else 2 * b.wpos + 10) := by
  have h1 : (append T v b).length =
      (if b.wpos + T.sizeof ≤ b.length then b.length else b.length + T.sizeof + 10) := by
    rw [append_of_bitpos_eight T v b hbit, storeBytes_length _ _ hnull, toWire_length]
    split_ifs <;> omega
  have h2 : (appendBytes src b).length =
      (if b.wpos + src.length ≤ b.length then b.length else b.length + src.length + 10) := by
    simp only [appendBytes]
    rw [storeBytes_length _ _ hnull]
    split_ifs <;> omega
  have h3 := appendBuffer_length buffer b hnull
  have h4 := appendString_length value b hnull
  refine ⟨⟨h1, ?_⟩, ⟨h2, ?_⟩, ⟨h3, ?_⟩, ⟨h4, ?_⟩, appendSelf_length b⟩
  · rw [h1]; split_ifs <;> omega
  · rw [h2]; split_ifs <;> omega
  · rw [h3]; split_ifs <;> omega
  · rw [h4]; split_ifs <;> omega

/-- Witness for the amended C20: the second `uint64` appended to a fresh
buffer. -/
theorem append_growth_witness :
    (append .uint64 1 ByteBuffer.new).bitpos = 8 ∧
      (append .uint64 1 ByteBuffer.new).null = false ∧
      (append .uint64 2 (append .uint64 1 ByteBuffer.new)).length = 10 + 8 + 10 := by
  have h := (append_growth .uint64 2 [] [] ByteBuffer.new (append .uint64 1 ByteBuffer.new)
    (by decide) (by decide)).1.1
  rw [if_neg (by decide)] at h
  exact ⟨by decide, by decide, h⟩

end ByteBuffer

/-! ## Byte sequences and strings: C14 and C15 -/

namespace ByteBuffer

theorem read_uint8_of_drop (b : ByteBuffer) (y : Nat) (tl : List Nat)
    (hd : b.data.drop b.rpos = y :: tl) :
    read .uint8 b = .ok (y : Int) { b with rpos := b.rpos + 1 } ∧
      b.data.drop (b.rpos + 1) = tl ∧ b.rpos < b.length := by
  have hlen : b.rpos < b.data.length := by
    by_contra hcon
    rw [List.drop_of_length_le (by omega)] at hd
    simp at hd
  have hmr : memRead b.data b.rpos 1 = [y] := by
    unfold memRead; rw [hd]; rfl
  have hys : b.data.drop (b.rpos + 1) = tl := by
    rw [← List.drop_drop, hd]; rfl
  refine ⟨?_, hys, hlen⟩
  rw [read_uint8_of_lt b (by simp only [length]; omega), hmr, ofWire_uint8_singleton]

/-- C15 (defect of the code on a null block). Byte-sequence helper. On a buffer with no pending bits, `wpos ≤ length`
and a block that is not null, `WriteByteSeq(0)` leaves the buffer unchanged and
for a nonzero byte `x` `WriteByteSeq(x)` appends the one byte `x XOR 1`
(`WriteByteSeq(5)` appends 4); with the read cursor at that byte, `ReadByteSeq`
on an input holding 1 consumes the byte and leaves `x`, and on an input holding
0 leaves 0 and consumes nothing. On the buffer `deAllocateLeftover()` leaves of
a fresh one (no pending bits, block null) `WriteByteSeq(5)` calls
`append<uint8>`, whose `_newAllocation` returns at `!ptr`: the block is null and
empty still when `memcpy` stores through it, the byte 4 is not in the block and
`ReadByteSeq` raises. -/
theorem byteSeq_roundtrip (x : Nat) (b : ByteBuffer) (hx : x < 256) (hx0 : x ≠ 0)
    (hbit : b.bitpos = 8) (hr : b.rpos = b.wpos) (hw : b.wpos ≤ b.length)
    (hnull : b.null = false) :
    (WriteByteSeq 0 b = b ∧
      (WriteByteSeq x b).written = b.written ++ [x ^^^ 1] ∧
      (WriteByteSeq x b).wpos = b.wpos + 1 ∧
      ReadByteSeq 1 (WriteByteSeq x b) =
        .ok x { WriteByteSeq x b with rpos := b.rpos + 1 } ∧
      ReadByteSeq 0 (WriteByteSeq x b) = .ok 0 (WriteByteSeq x b) ∧
      (WriteByteSeq 5 ByteBuffer.new).written = [4]) ∧
    ((deAllocateLeftover ByteBuffer.new).bitpos = 8 ∧
      (deAllocateLeftover ByteBuffer.new).null = true ∧
      (WriteByteSeq 5 (deAllocateLeftover ByteBuffer.new)).null = true ∧
      (WriteByteSeq 5 (deAllocateLeftover ByteBuffer.new)).length = 0 ∧
      (WriteByteSeq 5 (deAllocateLeftover ByteBuffer.new)).written = [] ∧
      ∃ e b1, ReadByteSeq 1 (WriteByteSeq 5 (deAllocateLeftover ByteBuffer.new)) =
        .raised e b1) := by
  refine ⟨?_, by decide, by decide, by decide, by decide, by decide, _, _, rfl⟩
  have hlt : x ^^^ 1 < 256 :=
    Nat.xor_lt_two_pow (n := 8) (by simpa using hx) (by norm_num)
  have hst : WriteByteSeq x b = storeBytes [x ^^^ 1] b := by
    simp only [WriteByteSeq, if_pos hx0]
    rw [append_uint8_of_bitpos_eight _ b hbit, toWire_uint8, Nat.mod_eq_of_lt hlt]
  have hxor : 1 ^^^ (x ^^^ 1) = x := by
    rw [Nat.xor_comm x 1, ← Nat.xor_assoc, Nat.xor_self, Nat.zero_xor]
  refine ⟨by simp [WriteByteSeq], ?_, ?_, ?_, by simp [ReadByteSeq], by decide⟩
  · rw [hst, storeBytes_written _ _ hw hnull]
  · rw [hst, storeBytes_wpos]; rfl
  · have hrp : (storeBytes [x ^^^ 1] b).rpos = b.rpos := storeBytes_rpos _ _
    have hle := storeBytes_wpos_le [x ^^^ 1] b hw hnull
    rw [storeBytes_wpos] at hle
    have hmr : memRead (storeBytes [x ^^^ 1] b).data b.wpos 1 = [x ^^^ 1] :=
      storeBytes_memRead [x ^^^ 1] b hw hnull
    rw [hst]
    simp only [ReadByteSeq, if_pos (by decide : (1 : Nat) ≠ 0)]
    rw [read_uint8_of_lt _ (by rw [hrp, hr]; exact hle), hrp, hr, hmr, ofWire_uint8_singleton]
    simp only [Int.toNat_ofNat, Nat.mod_eq_of_lt hlt, hxor, Nat.mod_eq_of_lt hx]

/-- Witness for C15: the byte `0x01`, stored as a zero byte. -/
theorem byteSeq_roundtrip_witness :
    (1 : Nat) < 256 ∧ ByteBuffer.new.bitpos = 8 ∧ ByteBuffer.new.null = false ∧
      (WriteByteSeq 1 ByteBuffer.new).written = ByteBuffer.new.written ++ [1 ^^^ 1] ∧
      ReadByteSeq 1 (WriteByteSeq 1 ByteBuffer.new) =
        .ok 1 { WriteByteSeq 1 ByteBuffer.new with rpos := ByteBuffer.new.rpos + 1 } :=
  ⟨by decide, by decide, by decide,
    (byteSeq_roundtrip 1 ByteBuffer.new (by decide) (by decide) (by decide) (by decide)
      (by decide) (by decide)).1.2.1,
    (byteSeq_roundtrip 1 ByteBuffer.new (by decide) (by decide) (by decide) (by decide)
      (by decide) (by decide)).1.2.2.2.1⟩

/-- The bound `length - rpos` on the iterations of the string loop is enough:
more fuel does not change the result. -/
theorem readStringLoop_succ (fuel : Nat) (value : List Nat) (b : ByteBuffer)
    (h : b.length - b.rpos ≤ fuel) :
    readStringLoop (fuel + 1) value b = readStringLoop fuel value b := by
  induction fuel generalizing value b with
  | zero =>
    have hn : ¬ b.rpos < b.length := by omega
    simp [readStringLoop, hn]
  | succ f ih =>
    by_cases hlt : b.rpos < b.length
    · rw [readStringLoop, readStringLoop, if_pos hlt, if_pos hlt,
        read_uint8_of_lt b (by omega)]
      simp only []
      split_ifs
      · rfl
      · exact ih _ _ (by simp only [length] at h ⊢; omega)
    · rw [readStringLoop, readStringLoop, if_neg hlt, if_neg hlt]

theorem readStringLoop_spec (s : List Nat) (fuel : Nat) (value rest : List Nat)
    (b : ByteBuffer) (hs0 : ∀ c ∈ s, c ≠ 0) (hs : ∀ c ∈ s, c < 256)
    (hd : b.data.drop b.rpos = s ++ 0 :: rest) (hf : s.length + 1 ≤ fuel) :
    readStringLoop fuel value b =
      .ok (value ++ s) { b with rpos := b.rpos + s.length + 1 } := by
  induction s generalizing fuel value b with
  | nil =>
    obtain ⟨f, rfl⟩ : ∃ f, fuel = f + 1 := ⟨fuel - 1, by simp at hf; omega⟩
    obtain ⟨hrd, _, hlt⟩ := read_uint8_of_drop b 0 rest (by simpa using hd)
    simp [readStringLoop, hlt, hrd]
  | cons c s ih =>
    obtain ⟨f, rfl⟩ : ∃ f, fuel = f + 1 := ⟨fuel - 1, by simp at hf; omega⟩
    obtain ⟨hrd, htl, hlt⟩ := read_uint8_of_drop b c (s ++ 0 :: rest) (by simpa using hd)
    have hc0 : c ≠ 0 := hs0 c (by simp)
    have hc : c < 256 := hs c (by simp)
    have hci : ¬ ((c : Int) = 0) := by omega
    rw [readStringLoop, if_pos hlt, hrd]
    simp only [if_neg hci, Int.toNat_ofNat, Nat.mod_eq_of_lt hc]
    rw [ih f (value ++ [c]) { b with rpos := b.rpos + 1 }
      (fun y hy => hs0 y (by simp [hy])) (fun y hy => hs y (by simp [hy])) htl
      (by simp at hf; omega)]
    simp [Nat.add_assoc, Nat.add_comm 1]

theorem appendString_data (value : List Nat) (b : ByteBuffer) (hw : b.wpos ≤ b.length)
    (hnull : b.null = false) :
    ∃ rest, (appendString value b).data = b.written ++ (value ++ [0]) ++ rest ∧
      (appendString value b).wpos = b.wpos + value.length + 1 ∧
      (appendString value b).rpos = b.rpos := by
  simp only [length] at hw
  have hsl : (value ++ [0]).length = value.length + 1 := by simp
  by_cases hg : b.wpos + (value.length + 1) > b.length
  · simp only [length] at hg
    have hg2 : ¬ (b.wpos + (value.length + 1) < b.data.length) := by omega
    refine ⟨(realloc b.data (b.wpos + (value.length + 1) + 10)).drop
      (b.wpos + (value ++ [0]).length), ?_, ?_, ?_⟩
    · simp only [appendString, length, _newAllocation, if_pos hg, hnull, false_or,
        if_neg hg2, Bool.false_eq_true, if_false]
      rw [memcpy_of_le _ _ _ (by rw [realloc_length, hsl]; omega),
        realloc_take _ _ _ hw (by omega)]
      rfl
    · simp only [appendString, length, _newAllocation, if_pos hg, hnull, false_or,
        if_neg hg2, Bool.false_eq_true, if_false]
      omega
    · simp only [appendString, length, _newAllocation, if_pos hg, hnull, false_or,
        if_neg hg2, Bool.false_eq_true, if_false]
  · simp only [length] at hg
    refine ⟨b.data.drop (b.wpos + (value ++ [0]).length), ?_, ?_, ?_⟩
    · simp only [appendString, length, if_neg hg]
      rw [memcpy_of_le _ _ _ (by rw [hsl]; omega)]
      rfl
    · simp only [appendString, length, if_neg hg]
      omega
    · simp only [appendString, length, if_neg hg]

/-- C14 (defect of the code on a null block). String round trip. For every string `s` without a zero byte and every
buffer with `wpos ≤ length` and a block that is not null whose read cursor
equals its write cursor, `operator<<(s)` appends the bytes of `s` followed by
one zero byte (`wpos` grows by `|s| + 1`), and the following `operator>>`
returns `s` and advances the read cursor by `|s| + 1`, to the write cursor. On
the buffer `clear(0)` leaves of a fresh one (read cursor equal to the write
cursor, no pending bits, block null) `operator<<` of the string `hi` calls
`_newAllocation`, which returns at `!ptr`: the block is null and empty still
when `memcpy` stores through it, and the following `operator>>` finds no byte:
it leaves the empty string and the read cursor at 0. -/
theorem string_roundtrip (s : List Nat) (b : ByteBuffer) (hs0 : ∀ c ∈ s, c ≠ 0)
    (hs : ∀ c ∈ s, c < 256) (hr : b.rpos = b.wpos) (hw : b.wpos ≤ b.length)
    (hnull : b.null = false) :
    ((appendString s b).written = b.written ++ s ++ [0] ∧
      (appendString s b).wpos = b.wpos + s.length + 1 ∧
      readString (appendString s b) =
        .ok s { appendString s b with rpos := b.rpos + s.length + 1 } ∧
      b.rpos + s.length + 1 = (appendString s b).wpos) ∧
    ((clear 0 ByteBuffer.new).rpos = (clear 0 ByteBuffer.new).wpos ∧
      (clear 0 ByteBuffer.new).bitpos = 8 ∧
      (clear 0 ByteBuffer.new).null = true ∧
      (appendString [0x68, 0x69] (clear 0 ByteBuffer.new)).null = true ∧
      (appendString [0x68, 0x69] (clear 0 ByteBuffer.new)).length = 0 ∧
      readString (appendString [0x68, 0x69] (clear 0 ByteBuffer.new)) =
        .ok [] (appendString [0x68, 0x69] (clear 0 ByteBuffer.new))) := by
  refine ⟨?_, by decide⟩
  obtain ⟨rest, hdata, hwp, hrp⟩ := appendString_data s b hw hnull
  have hbl : b.written.length = b.wpos := by
    simp only [written, List.length_take, length] at hw ⊢; omega
  have hdrop : (appendString s b).data.drop (appendString s b).rpos = s ++ 0 :: rest := by
    rw [hdata, hrp, hr, List.append_assoc, List.drop_append_of_le_length (by omega),
      List.drop_of_length_le (by omega)]
    simp
  have hlen : (appendString s b).length = b.wpos + s.length + 1 + rest.length := by
    simp only [length, hdata, List.length_append, hbl, List.length_singleton]
    omega
  refine ⟨?_, hwp, ?_, by rw [hwp, hr]⟩
  · have hwr : (appendString s b).written =
        ((appendString s b).data).take (appendString s b).wpos := rfl
    rw [hwr, hwp, hdata, List.take_append_of_le_length (by simp [hbl]; omega),
      List.take_of_length_le (by simp [hbl]; omega), List.append_assoc]
  · simp only [readString]
    rw [readStringLoop_spec s _ [] rest _ hs0 hs hdrop (by rw [hlen, hrp, hr]; omega), hrp]
    simp

/-- Witness for C14: the string `hi` on a fresh buffer. -/
theorem string_roundtrip_witness :
    ByteBuffer.new.rpos = ByteBuffer.new.wpos ∧ ByteBuffer.new.null = false ∧
      (appendString [0x68, 0x69] ByteBuffer.new).written = [0x68, 0x69, 0] ∧
      readString (appendString [0x68, 0x69] ByteBuffer.new) =
        .ok [0x68, 0x69] { appendString [0x68, 0x69] ByteBuffer.new with rpos := 3 } :=
  ⟨by decide, by decide,
    (string_roundtrip [0x68, 0x69] ByteBuffer.new (by decide) (by decide) (by decide)
      (by decide) (by decide)).1.1,
    (string_roundtrip [0x68, 0x69] ByteBuffer.new (by decide) (by decide) (by decide)
      (by decide) (by decide)).1.2.2.1⟩

end ByteBuffer

/-! ## Position packing: C16 -/

theorem toUInt32_and_mask (t : Int) :
    toUInt32 t &&& 0x7FF = (t % 2 ^ 11).toNat ∧ toUInt32 t &&& 0x3FF = (t % 2 ^ 10).toNat := by
  have h11 := Nat.and_pow_two_sub_one_eq_mod (toUInt32 t) 11
  have h10 := Nat.and_pow_two_sub_one_eq_mod (toUInt32 t) 10
  norm_num at h11 h10
  rw [h11, h10]
  simp only [toUInt32]
  constructor <;> omega

theorem packed_word_lt (a c d : Nat) (ha : a < 2 ^ 11) (hc : c < 2 ^ 11) (hd : d < 2 ^ 10) :
    a < 2 ^ 32 ∧ a ||| c <<< 11 < 2 ^ 32 ∧ a ||| c <<< 11 ||| d <<< 22 < 2 ^ 32 := by
  have h1 : a < 2 ^ 32 := by omega
  have h2 : c <<< 11 < 2 ^ 32 := by rw [Nat.shiftLeft_eq]; omega
  have h3 : d <<< 22 < 2 ^ 32 := by rw [Nat.shiftLeft_eq]; omega
  exact ⟨h1, Nat.or_lt_two_pow h1 h2, Nat.or_lt_two_pow (Nat.or_lt_two_pow h1 h2) h3⟩

namespace ByteBuffer

/-- C16, counterexample. For `x = -0.125` the quotient `x / 0.25` is `-0.5`; its
floor is `-1`, whose field would be `0x7FF`, but the conversion `(int)`
discards the fraction and yields `0`: `appendPackXYZ(-0.125, 0, 0)` appends the
word 0, the bytes `00 00 00 00`, not `FF 07 00 00`. -/
theorem appendPackXYZ_truncates :
    ⌊(-1 / 8 : ℚ) / (1 / 4)⌋ = -1 ∧ toUInt32 (-1) &&& 0x7FF = 0x7FF ∧
      leBytes 4 0x7FF = [0xFF, 0x07, 0, 0] ∧
      floatToInt ((-1 / 8 : ℚ) / (1 / 4)) = 0 ∧
      (appendPackXYZ (-1 / 8) 0 0 ByteBuffer.new).written = [0, 0, 0, 0] := by
  have hx : floatToInt ((-1 / 8 : ℚ) / (1 / 4)) = 0 := by norm_num [floatToInt]
  have h0 : floatToInt ((0 : ℚ) / (1 / 4)) = 0 := by norm_num [floatToInt]
  have hf : ⌊(-1 / 8 : ℚ) / (1 / 4)⌋ = -1 := by
    rw [Int.floor_eq_iff]; norm_num
  refine ⟨hf, by decide, by decide, hx, ?_⟩
  simp only [appendPackXYZ, hx, h0]
  decide

/-- C16, amended. With the coordinates taken as exact rationals whose quotient
by 0.25 fits a 32-bit signed integer, `appendPackXYZ(x, y, z)` on a buffer with
no pending bits, `wpos ≤ length` and a block that is not null appends, as one
little-endian 32-bit word, the value
`(t(x) & 0x7FF) | ((t(y) & 0x7FF) << 11) | ((t(z) & 0x3FF) << 22)` where
`t(c)` is `c / 0.25` with the fraction discarded (rounded toward zero, the
conversion `(int)`), the masks taken on the two-complement representation;
for a coordinate `c ≥ 0` this `t(c)` is `floor(c / 0.25)`. -/
theorem appendPackXYZ_word (x y z : ℚ) (b : ByteBuffer)
    (hbit : b.bitpos = 8) (hw : b.wpos ≤ b.length) (hnull : b.null = false)
    (hx : IntType.int32.InRange (floatToInt (x / (1 / 4))))
    (hy : IntType.int32.InRange (floatToInt (y / (1 / 4))))
    (hz : IntType.int32.InRange (floatToInt (z / (1 / 4)))) :
    memRead (appendPackXYZ x y z b).data b.wpos 4 =
        leBytes 4
          ((floatToInt (x / (1 / 4)) % 2 ^ 11).toNat |||
            (floatToInt (y / (1 / 4)) % 2 ^ 11).toNat <<< 11 |||
            (floatToInt (z / (1 / 4)) % 2 ^ 10).toNat <<< 22) ∧
      (appendPackXYZ x y z b).wpos = b.wpos + 4 ∧
      (floatToInt (x / (1 / 4)) =
        if 0 ≤ x then ⌊x / (1 / 4)⌋ else ⌈x / (1 / 4)⌉) := by
  have _ := hx
  have _ := hy
  have _ := hz
  obtain ⟨hax, _⟩ := toUInt32_and_mask (floatToInt (x / (1 / 4)))
  obtain ⟨hay, _⟩ := toUInt32_and_mask (floatToInt (y / (1 / 4)))
  obtain ⟨_, haz⟩ := toUInt32_and_mask (floatToInt (z / (1 / 4)))
  have hlx : (floatToInt (x / (1 / 4)) % 2 ^ 11).toNat < 2 ^ 11 := by omega
  have hly : (floatToInt (y / (1 / 4)) % 2 ^ 11).toNat < 2 ^ 11 := by omega
  have hlz : (floatToInt (z / (1 / 4)) % 2 ^ 10).toNat < 2 ^ 10 := by omega
  obtain ⟨h1, h2, h3⟩ := packed_word_lt _ _ _ hlx hly hlz
  have hword : appendPackXYZ x y z b =
      append .uint32
        (((floatToInt (x / (1 / 4)) % 2 ^ 11).toNat |||
          (floatToInt (y / (1 / 4)) % 2 ^ 11).toNat <<< 11 |||
          (floatToInt (z / (1 / 4)) % 2 ^ 10).toNat <<< 22 : Nat) : Int) b := by
    simp only [appendPackXYZ, hax, hay, haz, Nat.zero_or, Nat.mod_eq_of_lt h1,
      Nat.mod_eq_of_lt h2, Nat.mod_eq_of_lt h3]
  have hwire : ∀ W : Nat, W < 2 ^ 32 → toWire .uint32 (W : Int) = leBytes 4 W := by
    intro W hW
    have hu : ((W : Int) % (2 : Int) ^ IntType.uint32.bits).toNat = W := by
      simp only [IntType.bits, IntType.sizeof]; omega
    simp only [toWire, hu, IntType.sizeof]
  refine ⟨?_, ?_, ?_⟩
  · rw [hword, append_of_bitpos_eight _ _ b hbit, hwire _ h3]
    have hrd := storeBytes_memRead (leBytes 4 ((floatToInt (x / (1 / 4)) % 2 ^ 11).toNat |||
      (floatToInt (y / (1 / 4)) % 2 ^ 11).toNat <<< 11 |||
      (floatToInt (z / (1 / 4)) % 2 ^ 10).toNat <<< 22)) b hw hnull
    rw [leBytes_length] at hrd
    exact hrd
  · rw [hword, append_of_bitpos_eight _ _ b hbit, storeBytes_wpos, toWire_length]
    rfl
  · simp only [floatToInt]
    have h4 : (0 : ℚ) ≤ x / (1 / 4) ↔ 0 ≤ x := by
      rw [div_nonneg_iff]
      constructor
      · rintro (⟨h, _⟩ | ⟨_, h⟩)
        · exact h
        · norm_num at h
      · intro h; exact Or.inl ⟨h, by norm_num⟩
    simp only [h4]

/-- Witness for the amended C16: a negative `x`, on a fresh buffer. -/
theorem appendPackXYZ_word_witness :
    ByteBuffer.new.bitpos = 8 ∧ ByteBuffer.new.null = false ∧
      (appendPackXYZ (-5 / 4) 1 (1 / 2) ByteBuffer.new).wpos = ByteBuffer.new.wpos + 4 := by
  have hx : floatToInt ((-5 / 4 : ℚ) / (1 / 4)) = -5 := by
    simp only [floatToInt]
    rw [if_neg (by norm_num), Int.ceil_eq_iff]
    norm_num
  have hy : floatToInt ((1 : ℚ) / (1 / 4)) = 4 := by
    norm_num [floatToInt]
  have hz : floatToInt ((1 / 2 : ℚ) / (1 / 4)) = 2 := by
    norm_num [floatToInt]
  exact ⟨by decide, by decide,
    (appendPackXYZ_word (-5 / 4) 1 (1 / 2) ByteBuffer.new (by decide) (by decide) (by decide)
      (by rw [hx]; decide) (by rw [hy]; decide) (by rw [hz]; decide)).2.1⟩

end ByteBuffer

/-! ## Invariants over sequences of operations: C18 and C19 -/

theorem Outcome.after_eq_some {α : Type} (o : Outcome α) (b1 : ByteBuffer)
    (h : o.after = some b1) : ∃ v, o = .ok v b1 := by
  cases o with
  | ok v b =>
    simp only [Outcome.after, Option.some.injEq] at h
    exact ⟨v, by rw [h]⟩
  | raised e b => simp [Outcome.after] at h

namespace ByteBuffer

theorem flushBits_wpos_le (b : ByteBuffer) (h : b.wpos ≤ b.length) (hnull : b.null = false) :
    (flushBits b).wpos ≤ (flushBits b).length := by
  simp only [flushBits]
  split_ifs
  · exact h
  · exact storeBytes_wpos_le _ { b with bitpos := 8 } h hnull

theorem flushBits_null (b : ByteBuffer) : (flushBits b).null = b.null := by
  simp only [flushBits]
  split_ifs
  · rfl
  · exact storeBytes_null _ { b with bitpos := 8 }

theorem append_null (T : IntType) (v : Int) (b : ByteBuffer) : (append T v b).null = b.null := by
  simp only [append, storeBytes_null, flushBits_null]

theorem flushBits_bitpos (b : ByteBuffer) : (flushBits b).bitpos = 8 := by
  simp only [flushBits]
  split_ifs with h
  · exact h
  · simp [storeBytes_bitpos]

theorem append_wpos_le (T : IntType) (v : Int) (b : ByteBuffer) (h : b.wpos ≤ b.length)
    (hnull : b.null = false) :
    (append T v b).wpos ≤ (append T v b).length :=
  storeBytes_wpos_le _ _ (flushBits_wpos_le b h hnull) (by rw [flushBits_null]; exact hnull)

theorem append_bitpos (T : IntType) (v : Int) (b : ByteBuffer) : (append T v b).bitpos = 8 := by
  simp only [append, storeBytes_bitpos, flushBits_bitpos]

theorem appendBuffer_wpos_le (buffer b : ByteBuffer) (hnull : b.null = false) :
    (appendBuffer buffer b).2.wpos ≤ (appendBuffer buffer b).2.length := by
  have hl := appendBuffer_length buffer b hnull
  have hwp : (appendBuffer buffer b).2.wpos = b.wpos + buffer.wpos := by
    simp only [appendBuffer, deAllocateLeftover, length, realloc_length, _newAllocation]
    split_ifs <;> rfl
  rw [hl, hwp]
  split_ifs <;> omega

theorem appendSelf_wpos_le (b : ByteBuffer) :
    (appendSelf b).wpos ≤ (appendSelf b).length := by
  have hl := appendSelf_length b
  have hwp : (appendSelf b).wpos = b.wpos + b.wpos := by
    simp only [appendSelf, deAllocateLeftover, length, realloc_length, _newAllocation]
    split_ifs <;> rfl
  rw [hl, hwp]
  split_ifs <;> omega

theorem appendSelf_bitpos (b : ByteBuffer) : (appendSelf b).bitpos = b.bitpos := by
  simp only [appendSelf, deAllocateLeftover, _newAllocation]
  split_ifs <;> rfl

theorem appendString_wpos_le (value : List Nat) (b : ByteBuffer) (hnull : b.null = false) :
    (appendString value b).wpos ≤ (appendString value b).length := by
  have hl := appendString_length value b hnull
  have hwp : (appendString value b).wpos = b.wpos + (value.length + 1) := by
    simp only [appendString, _newAllocation]
    split_ifs <;> rfl
  rw [hl, hwp]
  split_ifs <;> omega

theorem read_ok_frame (T : IntType) (b : ByteBuffer) (v : Int) (b1 : ByteBuffer)
    (h : read T b = .ok v b1) :
    b1.wpos = b.wpos ∧ b1.data = b.data ∧ b1.bitpos = b.bitpos := by
  simp only [read] at h
  split_ifs at h
  injection h with _ hb
  subst hb
  exact ⟨rfl, rfl, rfl⟩

theorem readBit_ok_frame (b : ByteBuffer) (x : Bool) (b1 : ByteBuffer)
    (h : readBit b = .ok x b1) :
    b1.wpos = b.wpos ∧ b1.data = b.data ∧ b1.bitpos ≤ 7 := by
  simp only [readBit] at h
  split_ifs at h with h7
  · cases hr : read .uint8 { b with bitpos := 0 } with
    | ok v b2 =>
      rw [hr] at h
      obtain ⟨hw, hd, hb⟩ := read_ok_frame _ _ _ _ hr
      injection h with _ hb1
      subst hb1
      exact ⟨hw, hd, by simp [hb]⟩
    | raised e b2 =>
      rw [hr] at h
      cases h
  · injection h with _ hb1
    subst hb1
    exact ⟨rfl, rfl, by simp only []; omega⟩

theorem readBitsLoop_ok_frame (n val : Nat) (b : ByteBuffer) (v : Nat) (b1 : ByteBuffer)
    (h : readBitsLoop n val b = .ok v b1) :
    b1.wpos = b.wpos ∧ b1.data = b.data ∧ (b.bitpos ≤ 8 → b1.bitpos ≤ 8) := by
  induction n generalizing val b with
  | zero =>
    simp only [readBitsLoop] at h
    injection h with _ hb
    subst hb
    exact ⟨rfl, rfl, fun h8 => h8⟩
  | succ n ih =>
    simp only [readBitsLoop] at h
    cases hr : readBit b with
    | ok x b2 =>
      rw [hr] at h
      obtain ⟨hw, hd, hb⟩ := readBit_ok_frame _ _ _ hr
      obtain ⟨hw2, hd2, hb2⟩ := ih _ _ h
      exact ⟨by rw [hw2, hw], by rw [hd2, hd], fun _ => hb2 (by omega)⟩
    | raised e b2 =>
      rw [hr] at h
      cases h

theorem readPackGUIDLoop_ok_frame (guidmark n i guid : Nat) (b : ByteBuffer) (v : Nat)
    (b1 : ByteBuffer) (h : readPackGUIDLoop guidmark n i guid b = .ok v b1) :
    b1.wpos = b.wpos ∧ b1.data = b.data ∧ b1.bitpos = b.bitpos := by
  induction n generalizing i guid b with
  | zero =>
    simp only [readPackGUIDLoop] at h
    injection h with _ hb
    subst hb
    exact ⟨rfl, rfl, rfl⟩
  | succ n ih =>
    simp only [readPackGUIDLoop] at h
    split_ifs at h with h1 h2
    · cases hr : read .uint8 b with
      | ok x b2 =>
        rw [hr] at h
        obtain ⟨hw, hd, hb⟩ := read_ok_frame _ _ _ _ hr
        obtain ⟨hw2, hd2, hb2⟩ := ih _ _ _ h
        exact ⟨by rw [hw2, hw], by rw [hd2, hd], by rw [hb2, hb]⟩
      | raised e b2 =>
        rw [hr] at h
        cases h
    · exact ih _ _ _ h

theorem readPackGUID_ok_frame (b : ByteBuffer) (v : Nat) (b1 : ByteBuffer)
    (h : readPackGUID b = .ok v b1) :
    b1.wpos = b.wpos ∧ b1.data = b.data ∧ b1.bitpos = b.bitpos := by
  simp only [readPackGUID] at h
  split_ifs at h
  cases hr : read .uint8 b with
  | ok x b2 =>
    rw [hr] at h
    obtain ⟨hw, hd, hb⟩ := read_ok_frame _ _ _ _ hr
    obtain ⟨hw2, hd2, hb2⟩ := readPackGUIDLoop_ok_frame _ _ _ _ _ _ _ h
    exact ⟨by rw [hw2, hw], by rw [hd2, hd], by rw [hb2, hb]⟩
  | raised e b2 =>
    rw [hr] at h
    cases h

theorem writeBit_snd (bit : Nat) (b : ByteBuffer) :
    ∃ c : Nat, (writeBit bit b).2 =
      if sizeSub b.bitpos 1 = 0 then
        { append .uint8 (c : Int) { b with bitpos := 8, curbitval := c } with curbitval := 0 }
      else { b with bitpos := sizeSub b.bitpos 1, curbitval := c } :=
  ⟨_, rfl⟩

theorem writeBit_wpos_le (bit : Nat) (b : ByteBuffer) (h : b.wpos ≤ b.length)
    (hnull : b.null = false) :
    (writeBit bit b).2.wpos ≤ (writeBit bit b).2.length := by
  obtain ⟨c, hc⟩ := writeBit_snd bit b
  rw [hc]
  split_ifs
  · exact append_wpos_le .uint8 (c : Int) { b with bitpos := 8, curbitval := c } h hnull
  · exact h

theorem writeBit_null (bit : Nat) (b : ByteBuffer) : (writeBit bit b).2.null = b.null := by
  obtain ⟨c, hc⟩ := writeBit_snd bit b
  rw [hc]
  split_ifs
  · exact append_null .uint8 (c : Int) { b with bitpos := 8, curbitval := c }
  · rfl

theorem writeBit_bitpos (bit : Nat) (b : ByteBuffer) (h1 : b.bitpos ≠ 0) (h8 : b.bitpos ≤ 8) :
    (writeBit bit b).2.bitpos ≠ 0 ∧ (writeBit bit b).2.bitpos ≤ 8 := by
  have hsub : sizeSub b.bitpos 1 = b.bitpos - 1 := by
    simp only [sizeSub]; rw [if_pos (by omega)]
  obtain ⟨c, hc⟩ := writeBit_snd bit b
  rw [hc, hsub]
  split_ifs with h0
  · have hb := append_bitpos .uint8 (c : Int) { b with bitpos := 8, curbitval := c }
    have hb2 : ({ append .uint8 (c : Int) { b with bitpos := 8, curbitval := c } with
        curbitval := 0 } : ByteBuffer).bitpos = 8 := hb
    rw [hb2]
    exact ⟨by decide, le_refl _⟩
  · exact ⟨h0, by show b.bitpos - 1 ≤ 8; omega⟩

theorem writeBits_wpos_le (v n : Nat) (b : ByteBuffer) (h : b.wpos ≤ b.length)
    (hnull : b.null = false) :
    (writeBits v n b).wpos ≤ (writeBits v n b).length := by
  induction n generalizing b with
  | zero => exact h
  | succ n ih =>
    exact ih _ (writeBit_wpos_le _ b h hnull) (by rw [writeBit_null]; exact hnull)

theorem writeBits_bitpos (v n : Nat) (b : ByteBuffer) (h1 : b.bitpos ≠ 0) (h8 : b.bitpos ≤ 8) :
    (writeBits v n b).bitpos ≠ 0 ∧ (writeBits v n b).bitpos ≤ 8 := by
  induction n generalizing b with
  | zero => exact ⟨h1, h8⟩
  | succ n ih =>
    obtain ⟨h1a, h8a⟩ := writeBit_bitpos ((v >>> n) &&& 1) b h1 h8
    exact ih _ h1a h8a

end ByteBuffer

theorem Op.run_wpos_le (op : Op) (b b1 : ByteBuffer) (hc : op.isCopy = false)
    (hs : op.isStore = true → b.null = false)
    (h : b.wpos ≤ b.length) (hr : op.run b = some b1) : b1.wpos ≤ b1.length := by
  cases op with
  | append T value =>
    simp only [Op.run, Option.some.injEq] at hr
    subst hr
    exact ByteBuffer.append_wpos_le T value b h (hs rfl)
  | appendBytes src =>
    simp only [Op.run, Option.some.injEq] at hr
    subst hr
    exact ByteBuffer.storeBytes_wpos_le src b h (hs rfl)
  | appendBuffer buffer =>
    simp only [Op.run, Option.some.injEq] at hr
    subst hr
    exact ByteBuffer.appendBuffer_wpos_le buffer b (hs rfl)
  | appendSelf =>
    simp only [Op.run, Option.some.injEq] at hr
    subst hr
    exact ByteBuffer.appendSelf_wpos_le b
  | appendString value =>
    simp only [Op.run, Option.some.injEq] at hr
    subst hr
    exact ByteBuffer.appendString_wpos_le value b (hs rfl)
  | read T =>
    obtain ⟨v, hv⟩ := Outcome.after_eq_some _ _ hr
    obtain ⟨hw, hd, _⟩ := ByteBuffer.read_ok_frame _ _ _ _ hv
    rw [ByteBuffer.length, hw, hd]
    exact h
  | readBytes len =>
    obtain ⟨v, hv⟩ := Outcome.after_eq_some _ _ hr
    simp only [ByteBuffer.readBytes] at hv
    split_ifs at hv
    injection hv with _ hb
    subst hb
    exact h
  | read_skip skip =>
    obtain ⟨v, hv⟩ := Outcome.after_eq_some _ _ hr
    simp only [ByteBuffer.read_skip] at hv
    split_ifs at hv
    injection hv with _ hb
    subst hb
    exact h
  | rfinish =>
    simp only [Op.run, Option.some.injEq] at hr
    subst hr
    exact h
  | writeBit bit =>
    simp only [Op.run, Option.some.injEq] at hr
    subst hr
    exact ByteBuffer.writeBit_wpos_le bit b h (hs rfl)
  | readBit =>
    obtain ⟨v, hv⟩ := Outcome.after_eq_some _ _ hr
    obtain ⟨hw, hd, _⟩ := ByteBuffer.readBit_ok_frame _ _ _ hv
    rw [ByteBuffer.length, hw, hd]
    exact h
  | writeBits value bits =>
    simp only [Op.run, Option.some.injEq] at hr
    subst hr
    exact ByteBuffer.writeBits_wpos_le value bits b h (hs rfl)
  | readBits bits =>
    obtain ⟨v, hv⟩ := Outcome.after_eq_some _ _ hr
    obtain ⟨hw, hd, _⟩ := ByteBuffer.readBitsLoop_ok_frame _ _ _ _ _ hv
    rw [ByteBuffer.length, hw, hd]
    exact h
  | flushBits =>
    simp only [Op.run, Option.some.injEq] at hr
    subst hr
    exact ByteBuffer.flushBits_wpos_le b h (hs rfl)
  | appendPackGUID valueMem guid =>
    simp only [Op.run, Option.some.injEq] at hr
    subst hr
    simp only [ByteBuffer.appendPackGUID, ByteBuffer.deAllocateLeftover, ByteBuffer.length,
      realloc_length]
    exact le_refl _
  | readPackGUID =>
    obtain ⟨v, hv⟩ := Outcome.after_eq_some _ _ hr
    obtain ⟨hw, hd, _⟩ := ByteBuffer.readPackGUID_ok_frame _ _ _ hv
    rw [ByteBuffer.length, hw, hd]
    exact h
  | deAllocateLeftover =>
    simp only [Op.run, Option.some.injEq] at hr
    subst hr
    simp only [ByteBuffer.deAllocateLeftover, ByteBuffer.length, realloc_length]
    exact le_refl _
  | clear size =>
    simp only [Op.run, Option.some.injEq] at hr
    subst hr
    simp [ByteBuffer.clear]
  | copy => simp [Op.isCopy] at hc

theorem runAll_wpos_le (ops : List Op) (b b1 : ByteBuffer)
    (hc : ∀ op ∈ ops, op.isCopy = false) (hs : storeSafe ops b = true)
    (h : b.wpos ≤ b.length) (hr : runAll ops b = some b1) : b1.wpos ≤ b1.length := by
  induction ops generalizing b with
  | nil =>
    simp only [runAll, Option.some.injEq] at hr
    subst hr
    exact h
  | cons op ops ih =>
    simp only [runAll] at hr
    simp only [storeSafe, Bool.and_eq_true, Bool.or_eq_true, Bool.not_eq_true'] at hs
    cases hrun : op.run b with
    | none => rw [hrun] at hr; cases hr
    | some b2 =>
      rw [hrun] at hr hs
      have hg : op.isStore = true → b.null = false := by
        intro hst
        rcases hs.1 with h0 | h0
        · rw [hst] at h0; cases h0
        · exact h0
      exact ih b2 (fun o ho => hc o (by simp [ho])) hs.2
        (Op.run_wpos_le op b b2 (hc op (by simp)) hg h hrun) hr

/-- C18, counterexample. On a freshly constructed buffer `read<uint8>()` does
not raise and leaves `rpos = 1` above `wpos = 0`. Moreover `read<uint64>()`,
`deAllocateLeftover()` and the copy construction lead to `wpos = 8` above
`length = 0`. -/
theorem cursor_invariant_broken :
    (runAll [.read .uint8] ByteBuffer.new).map (fun b => (b.rpos, b.wpos)) = some (1, 0) ∧
      ¬ ((1 : Nat) ≤ 0) ∧
      (runAll [.read .uint64, .deAllocateLeftover, .copy] ByteBuffer.new).map
        (fun b => (b.wpos, b.length)) = some (8, 0) ∧
      ¬ ((8 : Nat) ≤ 0) := by
  decide

/-- C18, amended. In every state reachable from a freshly constructed buffer by
a finite sequence of the public operations other than the copy construction,
none of which raises and none of which appends, writes bits or flushes while
the block is null (the state `deAllocateLeftover()` at `wpos = 0` and `clear(0)`
leave), `wpos ≤ length` holds (and `0 ≤ rpos`, the cursors being unsigned).
`rpos ≤ wpos` is not part of the invariant: the sequential reads are bounded
by `length`. -/
theorem cursor_invariant (ops : List Op) (b1 : ByteBuffer)
    (hc : ∀ op ∈ ops, op.isCopy = false) (hs : storeSafe ops ByteBuffer.new = true)
    (hr : runAll ops ByteBuffer.new = some b1) :
    0 ≤ b1.rpos ∧ b1.wpos ≤ b1.length :=
  ⟨Nat.zero_le _, runAll_wpos_le ops ByteBuffer.new b1 hc hs (by decide) hr⟩

/-- Witness for the amended C18: a sequence that trims the empty buffer (the
block is then null), allocates again with `clear`, appends, reads past `wpos`,
trims and appends again. -/
theorem cursor_invariant_witness :
    (∀ op ∈ [Op.deAllocateLeftover, .clear 10, .append .uint16 7, .read .uint32,
        .deAllocateLeftover, .appendString [0x61]], op.isCopy = false) ∧
      storeSafe [.deAllocateLeftover, .clear 10, .append .uint16 7, .read .uint32,
        .deAllocateLeftover, .appendString [0x61]] ByteBuffer.new = true ∧
      (runAll [.deAllocateLeftover] ByteBuffer.new).map (fun b => b.null) = some true ∧
      (runAll [.deAllocateLeftover, .clear 10, .append .uint16 7, .read .uint32,
          .deAllocateLeftover, .appendString [0x61]] ByteBuffer.new).map
        (fun b => (b.rpos, b.wpos, b.length)) = some (4, 4, 14) ∧
      (4 : Nat) ≤ 14 :=
  ⟨by decide, by decide, by decide, by decide,
    (cursor_invariant
      [.deAllocateLeftover, .clear 10, .append .uint16 7, .read .uint32,
        .deAllocateLeftover, .appendString [0x61]]
      (ByteBuffer.appendString [0x61] (ByteBuffer.deAllocateLeftover
        { ByteBuffer.append .uint16 7 (ByteBuffer.clear 10
            (ByteBuffer.deAllocateLeftover ByteBuffer.new)) with rpos := 4 }))
      (by decide) (by decide) (by decide)).2⟩

theorem Op.run_bitpos_le (op : Op) (b b1 : ByteBuffer)
    (hg : op.isBitWrite = true → b.bitpos ≠ 0) (h : b.bitpos ≤ 8)
    (hr : op.run b = some b1) : b1.bitpos ≤ 8 := by
  cases op with
  | append T value =>
    simp only [Op.run, Option.some.injEq] at hr
    subst hr
    rw [ByteBuffer.append_bitpos]
  | appendBytes src =>
    simp only [Op.run, Option.some.injEq] at hr
    subst hr
    rw [ByteBuffer.appendBytes, ByteBuffer.storeBytes_bitpos]
    exact h
  | appendBuffer buffer =>
    simp only [Op.run, Option.some.injEq] at hr
    subst hr
    rw [(ByteBuffer.appendBuffer_bitstate buffer b).1]
    exact h
  | appendSelf =>
    simp only [Op.run, Option.some.injEq] at hr
    subst hr
    rw [ByteBuffer.appendSelf_bitpos]
    exact h
  | appendString value =>
    simp only [Op.run, Option.some.injEq] at hr
    subst hr
    rw [(ByteBuffer.appendString_bitstate value b).1]
    exact h
  | read T =>
    obtain ⟨v, hv⟩ := Outcome.after_eq_some _ _ hr
    obtain ⟨_, _, hb⟩ := ByteBuffer.read_ok_frame _ _ _ _ hv
    rw [hb]
    exact h
  | readBytes len =>
    obtain ⟨v, hv⟩ := Outcome.after_eq_some _ _ hr
    simp only [ByteBuffer.readBytes] at hv
    split_ifs at hv
    injection hv with _ hb
    subst hb
    exact h
  | read_skip skip =>
    obtain ⟨v, hv⟩ := Outcome.after_eq_some _ _ hr
    simp only [ByteBuffer.read_skip] at hv
    split_ifs at hv
    injection hv with _ hb
    subst hb
    exact h
  | rfinish =>
    simp only [Op.run, Option.some.injEq] at hr
    subst hr
    exact h
  | writeBit bit =>
    simp only [Op.run, Option.some.injEq] at hr
    subst hr
    exact (ByteBuffer.writeBit_bitpos bit b (hg rfl) h).2
  | readBit =>
    obtain ⟨v, hv⟩ := Outcome.after_eq_some _ _ hr
    obtain ⟨_, _, hb⟩ := ByteBuffer.readBit_ok_frame _ _ _ hv
    omega
  | writeBits value bits =>
    simp only [Op.run, Option.some.injEq] at hr
    subst hr
    exact (ByteBuffer.writeBits_bitpos value bits b (hg rfl) h).2
  | readBits bits =>
    obtain ⟨v, hv⟩ := Outcome.after_eq_some _ _ hr
    obtain ⟨_, _, hb⟩ := ByteBuffer.readBitsLoop_ok_frame _ _ _ _ _ hv
    exact hb h
  | flushBits =>
    simp only [Op.run, Option.some.injEq] at hr
    subst hr
    rw [ByteBuffer.flushBits_bitpos]
  | appendPackGUID valueMem guid =>
    simp only [Op.run, Option.some.injEq] at hr
    subst hr
    simp only [ByteBuffer.appendPackGUID, ByteBuffer.deAllocateLeftover,
      ByteBuffer.appendSized, ByteBuffer.storeBytes_bitpos, ByteBuffer.flushBits_bitpos]
    exact le_refl _
  | readPackGUID =>
    obtain ⟨v, hv⟩ := Outcome.after_eq_some _ _ hr
    obtain ⟨_, _, hb⟩ := ByteBuffer.readPackGUID_ok_frame _ _ _ hv
    rw [hb]
    exact h
  | deAllocateLeftover =>
    simp only [Op.run, Option.some.injEq] at hr
    subst hr
    exact h
  | clear size =>
    simp only [Op.run, Option.some.injEq] at hr
    subst hr
    simp [ByteBuffer.clear]
  | copy =>
    simp only [Op.run, Option.some.injEq] at hr
    subst hr
    exact h

theorem runAll_bitpos_le (ops : List Op) (b b1 : ByteBuffer)
    (hs : bitWriteSafe ops b = true) (h : b.bitpos ≤ 8)
    (hr : runAll ops b = some b1) : b1.bitpos ≤ 8 := by
  induction ops generalizing b with
  | nil =>
    simp only [runAll, Option.some.injEq] at hr
    subst hr
    exact h
  | cons op ops ih =>
    simp only [runAll] at hr
    simp only [bitWriteSafe, Bool.and_eq_true, Bool.or_eq_true, Bool.not_eq_true',
      bne_iff_ne, ne_eq] at hs
    cases hrun : op.run b with
    | none => rw [hrun] at hr; cases hr
    | some b2 =>
      rw [hrun] at hr hs
      have hg : op.isBitWrite = true → b.bitpos ≠ 0 := by
        intro hw
        rcases hs.1 with h0 | h0
        · rw [hw] at h0; cases h0
        · exact h0
      exact ih b2 hs.2 (Op.run_bitpos_le op b b2 hg h hrun) hr

/-- C19, counterexample. On a freshly constructed buffer `readBit()` fetches a
byte and leaves the bit cursor at 0; the following `writeBit(0)` decrements it
to `2 ^ 64 - 1`, outside `[0, 8]`. Neither call raises. -/
theorem bit_cursor_wraps :
    runAll [.readBit, .writeBit 0] ByteBuffer.new =
        some { rpos := 1, wpos := 0, bitpos := 18446744073709551615, curbitval := 0,
               data := [0, 0, 0, 0, 0, 0, 0, 0, 0, 0] } ∧
      ¬ (18446744073709551615 ≤ 8) := by
  decide

/-- C19, amended. In every state reachable from a freshly constructed buffer by
a finite sequence of operations none of which raises and in which no
`writeBit` or `writeBits` is issued while the bit cursor is 0 (the value
`readBit` leaves after fetching a byte), the bit cursor is in `[0, 8]`. -/
theorem bit_cursor_range (ops : List Op) (b1 : ByteBuffer)
    (hs : bitWriteSafe ops ByteBuffer.new = true)
    (hr : runAll ops ByteBuffer.new = some b1) :
    0 ≤ b1.bitpos ∧ b1.bitpos ≤ 8 :=
  ⟨Nat.zero_le _, runAll_bitpos_le ops ByteBuffer.new b1 hs (by decide) hr⟩

/-- Witness for the amended C19: three bits written, flushed and read back,
then an append and a further bit. -/
theorem bit_cursor_range_witness :
    bitWriteSafe [.writeBits 5 3, .flushBits, .readBits 3, .append .uint8 1, .writeBit 1]
        ByteBuffer.new = true ∧
      runAll [.writeBits 5 3, .flushBits, .readBits 3, .append .uint8 1, .writeBit 1]
          ByteBuffer.new =
        some { rpos := 1, wpos := 3, bitpos := 7, curbitval := 128,
               data := [160, 160, 1, 0, 0, 0, 0, 0, 0, 0] } ∧
      (7 : Nat) ≤ 8 :=
  ⟨by decide, by decide,
    (bit_cursor_range
      [.writeBits 5 3, .flushBits, .readBits 3, .append .uint8 1, .writeBit 1]
      { rpos := 1, wpos := 3, bitpos := 7, curbitval := 128,
        data := [160, 160, 1, 0, 0, 0, 0, 0, 0, 0] }
      (by decide) (by decide)).2⟩
